import Mathlib

set_option maxHeartbeats 1000000

namespace Berry

/-! Shallow embedding of the document-editing core of the `berry` terminal
editor: `row.rs` (lines with multi-byte-safe addressing), `edit_diff.rs`
(invertible edit operations), `text_buffer.rs` (the document orchestrator)
and the `history` module (undo/redo transactions, modelled from the spec
since its source file is not part of the sources at hand).

Strings are modelled as `List Char`; byte indices are made explicit through
the UTF-8 size of each character, and every Rust operation that can panic
(slicing off a character boundary, out-of-range indexing, `unwrap`,
`usize` underflow) is modelled as returning `none`. -/

/-- Tab stop used for rendering (`TAB_STOP` in `row.rs`). -/
def TAB_STOP : Nat := 4

/-- UTF-8 encoded size in bytes of a character (Rust `char::len_utf8`). -/
def charSize (c : Char) : Nat :=
  if c.val ≤ 0x7F then 1
  else if c.val ≤ 0x7FF then 2
  else if c.val ≤ 0xFFFF then 3
  else 4

theorem charSize_pos (c : Char) : 0 < charSize c := by
  unfold charSize
  repeat' split
  all_goals omega

/-- Whether a character renders double-width. Coarse model of the
unicode-width crate's East Asian wide/fullwidth classification; the exact
extent of the table only shifts tab-stop arithmetic and no property below
depends on which characters are wide. -/
def isWideChar (c : Char) : Bool :=
  (0x1100 ≤ c.val && c.val ≤ 0x115F) ||
  (0x2E80 ≤ c.val && c.val ≤ 0x303E) ||
  (0x3041 ≤ c.val && c.val ≤ 0x33FF) ||
  (0x3400 ≤ c.val && c.val ≤ 0x4DBF) ||
  (0x4E00 ≤ c.val && c.val ≤ 0x9FFF) ||
  (0xA000 ≤ c.val && c.val ≤ 0xA4CF) ||
  (0xAC00 ≤ c.val && c.val ≤ 0xD7A3) ||
  (0xF900 ≤ c.val && c.val ≤ 0xFAFF) ||
  (0xFE30 ≤ c.val && c.val ≤ 0xFE4F) ||
  (0xFF00 ≤ c.val && c.val ≤ 0xFF60) ||
  (0xFFE0 ≤ c.val && c.val ≤ 0xFFE6)

/-- Model of `unicode_width::UnicodeWidthChar::width_cjk`: control
characters (U+0000 - U+001F, U+007F - U+009F) have no defined display
width; every other character has a positive display width. -/
def widthCjk (c : Char) : Option Nat :=
  if c.val < 0x20 || (0x7F ≤ c.val && c.val ≤ 0x9F) then none
  else if isWideChar c then some 2 else some 1

/-- A character that `Row::update_render` accepts: a tab, or any character
with a defined display width. -/
def validChar (c : Char) : Prop := c = '\t' ∨ (widthCjk c).isSome

instance (c : Char) : Decidable (validChar c) := by
  unfold validChar; infer_instance

/-- Byte length of a list of characters under UTF-8 (Rust `String::len`). -/
def byteLen (l : List Char) : Nat := (l.map charSize).sum

theorem byteLen_append (a b : List Char) :
    byteLen (a ++ b) = byteLen a + byteLen b := by
  simp [byteLen]

theorem byteLen_cons (c : Char) (l : List Char) :
    byteLen (c :: l) = charSize c + byteLen l := by
  simp [byteLen]

theorem byteLen_nil : byteLen [] = 0 := rfl

theorem length_le_byteLen (l : List Char) : l.length ≤ byteLen l := by
  induction l with
  | nil => simp [byteLen]
  | cons c cs ih =>
    have := charSize_pos c
    simp only [byteLen_cons, List.length_cons]
    omega

theorem byteLen_eq_length_iff (l : List Char) :
    byteLen l = l.length ↔ ∀ c ∈ l, charSize c = 1 := by
  induction l with
  | nil => simp [byteLen]
  | cons c cs ih =>
    have hc := charSize_pos c
    have hcs := length_le_byteLen cs
    constructor
    · intro h
      simp only [byteLen_cons, List.length_cons] at h
      have h1 : charSize c = 1 := by omega
      have h2 : byteLen cs = cs.length := by omega
      intro x hx
      rcases List.mem_cons.mp hx with rfl | hx
      · exact h1
      · exact (ih.mp h2) x hx
    · intro h
      have h1 : charSize c = 1 := h c (List.mem_cons_self ..)
      have h2 : byteLen cs = cs.length := ih.mpr fun x hx => h x (List.mem_cons_of_mem _ hx)
      simp only [byteLen_cons, List.length_cons]
      omega

/-- Byte offset of each character of the content, in order
(`String::char_indices` in `Row::update_render`). -/
def byteOffsets : List Char → List Nat
  | [] => []
  | c :: cs => 0 :: (byteOffsets cs).map (· + charSize c)

theorem byteOffsets_length (l : List Char) :
    (byteOffsets l).length = l.length := by
  induction l with
  | nil => rfl
  | cons c cs ih => simp [byteOffsets, ih]

theorem byteOffsets_get? (l : List Char) (i : Nat) (h : i < l.length) :
    (byteOffsets l).get? i = some (byteLen (l.take i)) := by
  induction l generalizing i with
  | nil => simp at h
  | cons c cs ih =>
    cases i with
    | zero => simp [byteOffsets, byteLen]
    | succ j =>
      simp only [List.length_cons, Nat.succ_lt_succ_iff] at h
      have := ih j h
      simp only [byteOffsets, List.get?_cons_succ, List.get?_map, this, Option.map_some]
      simp [byteLen_cons]
      omega

/-- Split a character list at a byte offset. `none` when the offset is past
the end or does not lie on a character boundary — the cases in which the
corresponding Rust slicing operation panics. -/
def splitAtByte : List Char → Nat → Option (List Char × List Char)
  | l, 0 => some ([], l)
  | [], _ + 1 => none
  | c :: cs, b + 1 =>
    if charSize c ≤ b + 1 then
      (splitAtByte cs (b + 1 - charSize c)).map fun p => (c :: p.1, p.2)
    else none

theorem splitAtByte_zero (l : List Char) : splitAtByte l 0 = some ([], l) := by
  cases l <;> rfl

theorem splitAtByte_take (l : List Char) (i : Nat) :
    splitAtByte l (byteLen (l.take i)) = some (l.take i, l.drop i) := by
  induction l generalizing i with
  | nil => simp [byteLen, splitAtByte_zero]
  | cons c cs ih =>
    cases i with
    | zero => simp [byteLen, splitAtByte_zero]
    | succ j =>
      have hc := charSize_pos c
      have hb : byteLen ((c :: cs).take (j + 1)) = charSize c + byteLen (cs.take j) := by
        simp [byteLen_cons]
      rw [hb]
      have : charSize c + byteLen (cs.take j) = (charSize c + byteLen (cs.take j) - 1) + 1 := by
        omega
      rw [this]
      simp only [splitAtByte]
      have hle : charSize c ≤ charSize c + byteLen (cs.take j) - 1 + 1 := by omega
      rw [if_pos hle]
      have harg : charSize c + byteLen (cs.take j) - 1 + 1 - charSize c = byteLen (cs.take j) := by
        omega
      rw [harg, ih]
      simp

theorem splitAtByte_eq (l : List Char) (b : Nat) (p q : List Char)
    (h : splitAtByte l b = some (p, q)) : l = p ++ q ∧ b = byteLen p := by
  induction l generalizing b p q with
  | nil =>
    cases b with
    | zero =>
      simp only [splitAtByte, Option.some.injEq, Prod.mk.injEq] at h
      obtain ⟨h1, h2⟩ := h
      subst h1; subst h2
      simp [byteLen]
    | succ _ => simp [splitAtByte] at h
  | cons c cs ih =>
    cases b with
    | zero =>
      simp only [splitAtByte, Option.some.injEq, Prod.mk.injEq] at h
      obtain ⟨h1, h2⟩ := h
      subst h1; subst h2
      simp [byteLen]
    | succ b' =>
      simp only [splitAtByte] at h
      split at h
      · rename_i hle
        cases hsp : splitAtByte cs (b' + 1 - charSize c) with
        | none => rw [hsp] at h; simp at h
        | some pq =>
          obtain ⟨p', q'⟩ := pq
          rw [hsp] at h
          simp only [Option.map_some', Option.some.injEq, Prod.mk.injEq] at h
          obtain ⟨h1, h2⟩ := h
          obtain ⟨hl, hb⟩ := ih _ _ _ hsp
          subst h1; subst h2
          constructor
          · simp [hl]
          · simp only [byteLen_cons, ← hb]; omega
      · simp at h

/-- Rust `String::insert` at a byte offset (panics off a char boundary). -/
def insertAtByte (l : List Char) (b : Nat) (c : Char) : Option (List Char) :=
  (splitAtByte l b).map fun p => p.1 ++ c :: p.2

/-- Rust `String::remove` at a byte offset (panics off a boundary or at the
end of the string, where no character starts). -/
def removeAtByte (l : List Char) (b : Nat) : Option (List Char) :=
  match splitAtByte l b with
  | some (p, _ :: q) => some (p ++ q)
  | _ => none

/-- Rust `String::truncate` to a byte length: no-op past the end, panics off
a char boundary. -/
def truncateAtByte (l : List Char) (b : Nat) : Option (List Char) :=
  if byteLen l < b then some l
  else (splitAtByte l b).map fun p => p.1

/-- Rust `String::drain(s..e)` (panics when the range is invalid or either
bound is off a char boundary). -/
def drainBytes (l : List Char) (s e : Nat) : Option (List Char) :=
  if e < s then none
  else
    (splitAtByte l s).bind fun pr =>
      (splitAtByte pr.2 (e - s)).map fun mp => pr.1 ++ mp.2

/-- Rust `usize` subtraction; underflow panics (debug semantics). -/
def usizeSub (a b : Nat) : Option Nat :=
  if b ≤ a then some (a - b) else none

/-- The in-memory slice of the `Error` taxonomy of `error.rs`; the I/O and
terminal-geometry variants never arise in the editing core modelled here. -/
inductive Error where
  | ControlCharInText (c : Char)
deriving DecidableEq, Repr

/-- `Row` of `row.rs`: raw content `buf`, rendered form `render`, and the
`indices` cache of per-character byte offsets (empty when it is absent). -/
structure Row where
  buf : List Char
  render : List Char
  indices : List Nat
deriving DecidableEq, Repr

/-- The loop of `Row::update_render`: builds the rendered text, the display
column `index` and the character count, failing on a character with no
display width other than tab. A tab is expanded with spaces to the next
multiple of `TAB_STOP` (the source's do-while push loop). -/
def updateRenderGo : List Char → Nat → Except Error (List Char × Nat)
  | [], _ => .ok ([], 0)
  | c :: cs, index =>
    if c = '\t' then
      let k := TAB_STOP - index % TAB_STOP
      match updateRenderGo cs (index + k) with
      | .ok (r, n) => .ok (List.replicate k ' ' ++ r, n + 1)
      | .error e => .error e
    else
      match widthCjk c with
      | some w =>
        match updateRenderGo cs (index + w) with
        | .ok (r, n) => .ok (c :: r, n + 1)
        | .error e => .error e
      | none => .error (.ControlCharInText c)

/-- `Row::update_render`: recompute the rendered text, and the byte-offset
cache exactly when the character count differs from the byte length. -/
def update_render (buf : List Char) : Except Error (List Char × List Nat) :=
  (updateRenderGo buf 0).map fun p =>
    if p.2 = byteLen buf then (p.1, []) else (p.1, byteOffsets buf)

/-- `Row::empty`. -/
def Row.emptyRow : Row := ⟨[], [], []⟩

/-- `Row::new`. -/
def Row.new (line : List Char) : Except Error Row :=
  match update_render line with
  | .ok (r, idx) => .ok ⟨line, r, idx⟩
  | .error e => .error e

/-- `Row::len` (character length; `buf.len()` is the byte length, used when
the cache is absent, i.e. when every character is one byte). -/
def Row.len (r : Row) : Nat :=
  if r.indices = [] then byteLen r.buf else r.indices.length

/-- `Row::byte_idx_of`: character index to byte offset; out-of-range cache
indexing panics. -/
def Row.byte_idx_of (r : Row) (charIdx : Nat) : Option Nat :=
  if r.indices.length = 0 then some charIdx
  else if r.indices.length = charIdx then some (byteLen r.buf)
  else r.indices.get? charIdx

/-- `Row::char_at_checked` (`self[at..].chars().next()`; slicing panics off
a boundary, and `Row::char_at` unwraps the result). -/
def Row.char_at_checked (r : Row) (i : Nat) : Option Char := do
  let b ← r.byte_idx_of i
  let (_, rest) ← splitAtByte r.buf b
  rest.head?

/-- The `Index<RangeFrom>` impl (`self[i..]`), as the suffix of `buf`. -/
def Row.sliceFrom (r : Row) (i : Nat) : Option (List Char) := do
  let b ← r.byte_idx_of i
  let (_, q) ← splitAtByte r.buf b
  pure q

/-- `Row::insert_char` (appends when `at` is at or past the end); the
source's `update_render().unwrap()` panics on a render failure, modelled as
`none`. -/
def Row.insert_char (r : Row) (i : Nat) (c : Char) : Option Row := do
  let buf' ←
    if r.len ≤ i then pure (r.buf ++ [c])
    else do
      let b ← r.byte_idx_of i
      insertAtByte r.buf b c
  let (render, indices) ← (update_render buf').toOption
  pure ⟨buf', render, indices⟩

/-- `Row::append` (no-op on an empty argument). -/
def Row.append (r : Row) (s : List Char) : Option Row :=
  if s = [] then some r
  else do
    let buf' := r.buf ++ s
    let (render, indices) ← (update_render buf').toOption
    pure ⟨buf', render, indices⟩

/-- `Row::truncate` (no-op at or past the character length). -/
def Row.truncate (r : Row) (i : Nat) : Option Row :=
  if i < r.len then do
    let b ← r.byte_idx_of i
    let buf' ← truncateAtByte r.buf b
    let (render, indices) ← (update_render buf').toOption
    pure ⟨buf', render, indices⟩
  else some r

/-- `Row::remove_char`. -/
def Row.remove_char (r : Row) (i : Nat) : Option Row := do
  let b ← r.byte_idx_of i
  let buf' ← removeAtByte r.buf b
  let (render, indices) ← (update_render buf').toOption
  pure ⟨buf', render, indices⟩

/-- `Row::remove` of the character range `start..stop` (no-op unless
`start < stop`). -/
def Row.remove (r : Row) (start stop : Nat) : Option Row :=
  if start < stop then do
    let s ← r.byte_idx_of start
    let e ← r.byte_idx_of stop
    let buf' ← drainBytes r.buf s e
    let (render, indices) ← (update_render buf').toOption
    pure ⟨buf', render, indices⟩
  else some r

/-- A row's derived fields are exactly what `update_render` computes from
its content — the well-formedness every constructed row enjoys. -/
def Row.wf (r : Row) : Prop :=
  update_render r.buf = .ok (r.render, r.indices)

deriving instance DecidableEq for Except

instance (r : Row) : Decidable r.wf := by
  unfold Row.wf; infer_instance

/-- The display form prescribed by the spec: each tab expanded with spaces
to the next multiple of the tab stop, every other character kept, advancing
the display column by its display width. -/
def renderSpec : List Char → Nat → List Char
  | [], _ => []
  | c :: cs, col =>
    if c = '\t' then
      List.replicate (TAB_STOP - col % TAB_STOP) ' ' ++
        renderSpec cs (col + (TAB_STOP - col % TAB_STOP))
    else c :: renderSpec cs (col + (widthCjk c).getD 0)

/-- The cache contents prescribed by the spec: absent for pure single-byte
content, the per-character byte offsets otherwise. -/
def specIdx (l : List Char) : List Nat :=
  if byteLen l = l.length then [] else byteOffsets l

theorem updateRenderGo_ok (l : List Char) (idx : Nat)
    (h : ∀ c ∈ l, validChar c) :
    updateRenderGo l idx = .ok (renderSpec l idx, l.length) := by
  induction l generalizing idx with
  | nil => rfl
  | cons c cs ih =>
    have hc := h c (List.mem_cons_self ..)
    have hcs : ∀ x ∈ cs, validChar x := fun x hx => h x (List.mem_cons_of_mem _ hx)
    by_cases ht : c = '\t'
    · simp only [updateRenderGo, if_pos ht, ih _ hcs, renderSpec, List.length_cons]
    · rcases hc with hc | hc
      · exact absurd hc ht
      · obtain ⟨w, hw⟩ := Option.isSome_iff_exists.mp hc
        simp only [updateRenderGo, if_neg ht, hw, ih _ hcs, renderSpec, List.length_cons,
          Option.getD_some]

theorem updateRenderGo_invalid (l : List Char) (idx : Nat)
    (h : ∃ c ∈ l, ¬ validChar c) :
    ∃ c ∈ l, ¬ validChar c ∧ updateRenderGo l idx = .error (.ControlCharInText c) := by
  induction l generalizing idx with
  | nil => simp at h
  | cons c cs ih =>
    by_cases hc : validChar c
    · have hcs : ∃ x ∈ cs, ¬ validChar x := by
        obtain ⟨x, hx, hnx⟩ := h
        rcases List.mem_cons.mp hx with rfl | hx
        · exact absurd hc hnx
        · exact ⟨x, hx, hnx⟩
      by_cases ht : c = '\t'
      · obtain ⟨x, hx, hnx, herr⟩ := ih (idx + (TAB_STOP - idx % TAB_STOP)) hcs
        refine ⟨x, List.mem_cons_of_mem _ hx, hnx, ?_⟩
        simp only [updateRenderGo, if_pos ht, herr]
      · rcases hc with hc | hc
        · exact absurd hc ht
        · obtain ⟨w, hw⟩ := Option.isSome_iff_exists.mp hc
          obtain ⟨x, hx, hnx, herr⟩ := ih (idx + w) hcs
          refine ⟨x, List.mem_cons_of_mem _ hx, hnx, ?_⟩
          simp only [updateRenderGo, if_neg ht, hw, herr]
    · refine ⟨c, List.mem_cons_self .., hc, ?_⟩
      have ht : c ≠ '\t' := by
        intro h'; exact hc (Or.inl h')
      have hw : widthCjk c = none := by
        cases hwc : widthCjk c with
        | none => rfl
        | some w => exact absurd (Or.inr (by simp [hwc])) hc
      simp only [updateRenderGo, if_neg ht, hw]

theorem update_render_ok (l : List Char) (h : ∀ c ∈ l, validChar c) :
    update_render l = .ok (renderSpec l 0, specIdx l) := by
  unfold update_render specIdx
  rw [updateRenderGo_ok l 0 h]
  by_cases he : l.length = byteLen l
  · simp [Except.map, if_pos he, if_pos he.symm]
  · simp [Except.map, if_neg he, if_neg (fun h' => he (Eq.symm h'))]

theorem update_render_invalid (l : List Char) (h : ∃ c ∈ l, ¬ validChar c) :
    ∃ c ∈ l, ¬ validChar c ∧ update_render l = .error (.ControlCharInText c) := by
  obtain ⟨c, hc, hnc, herr⟩ := updateRenderGo_invalid l 0 h
  refine ⟨c, hc, hnc, ?_⟩
  unfold update_render
  rw [herr]
  rfl

theorem update_render_ok_valid {l : List Char} {p : List Char × List Nat}
    (h : update_render l = .ok p) : ∀ c ∈ l, validChar c := by
  by_contra hn
  push_neg at hn
  obtain ⟨c, hc, hnc, herr⟩ :=
    update_render_invalid l ⟨hn.choose, hn.choose_spec.1, hn.choose_spec.2⟩
  rw [herr] at h
  exact Except.noConfusion h

theorem update_render_ok_eq {l : List Char} {p : List Char × List Nat}
    (h : update_render l = .ok p) : p = (renderSpec l 0, specIdx l) := by
  have h2 := update_render_ok l (update_render_ok_valid h)
  rw [h] at h2
  exact Except.ok.inj h2

theorem Row.wf_valid {r : Row} (h : r.wf) : ∀ c ∈ r.buf, validChar c :=
  update_render_ok_valid h

theorem Row.wf_fields {r : Row} (h : r.wf) :
    r.render = renderSpec r.buf 0 ∧ r.indices = specIdx r.buf := by
  have h2 := update_render_ok_eq h
  exact ⟨congrArg Prod.fst h2, congrArg Prod.snd h2⟩

theorem Row.wf_mk (l : List Char) (h : ∀ c ∈ l, validChar c) :
    Row.wf ⟨l, renderSpec l 0, specIdx l⟩ := update_render_ok l h

theorem Row.wf_unique {r r' : Row} (h : r.wf) (h' : r'.wf) (hb : r.buf = r'.buf) :
    r = r' := by
  obtain ⟨h1, h2⟩ := Row.wf_fields h
  obtain ⟨h1', h2'⟩ := Row.wf_fields h'
  cases r; cases r'
  simp_all

theorem specIdx_of_ne {l : List Char} (he : ¬ byteLen l = l.length) :
    specIdx l = byteOffsets l ∧ byteOffsets l ≠ [] ∧ l ≠ [] := by
  refine ⟨by unfold specIdx; rw [if_neg he], ?_, ?_⟩
  · cases l with
    | nil => exact absurd rfl he
    | cons a as => simp [byteOffsets]
  · cases l with
    | nil => exact absurd rfl he
    | cons a as => simp

theorem Row.wf_len {r : Row} (h : r.wf) : r.len = r.buf.length := by
  obtain ⟨_, hidx⟩ := Row.wf_fields h
  unfold Row.len
  by_cases he : byteLen r.buf = r.buf.length
  · rw [hidx]
    unfold specIdx
    rw [if_pos he, if_pos rfl]
    exact he
  · obtain ⟨hs, hne, _⟩ := specIdx_of_ne he
    rw [hidx, hs, if_neg hne, byteOffsets_length]

theorem Row.byte_idx_of_wf {r : Row} (h : r.wf) (i : Nat) (hi : i ≤ r.buf.length) :
    r.byte_idx_of i = some (byteLen (r.buf.take i)) := by
  obtain ⟨_, hidx⟩ := Row.wf_fields h
  unfold Row.byte_idx_of
  by_cases he : byteLen r.buf = r.buf.length
  · have hone : ∀ c ∈ r.buf, charSize c = 1 := (byteLen_eq_length_iff _).mp he
    have htake : byteLen (r.buf.take i) = i := by
      have h2 : byteLen (r.buf.take i) = (r.buf.take i).length :=
        (byteLen_eq_length_iff _).mpr fun c hc => hone c (List.mem_of_mem_take hc)
      rw [h2, List.length_take]
      omega
    rw [hidx]
    unfold specIdx
    rw [if_pos he]
    simp [htake]
  · obtain ⟨hs, hne, hbne⟩ := specIdx_of_ne he
    have hlen : r.indices.length = r.buf.length := by
      rw [hidx, hs, byteOffsets_length]
    have hz : r.buf.length ≠ 0 := fun h0 => hbne (List.length_eq_zero.mp h0)
    rcases Nat.lt_or_ge i r.buf.length with hlt | hge
    · rw [if_neg (by omega), if_neg (by omega), hidx, hs]
      exact byteOffsets_get? _ _ hlt
    · have hieq : i = r.buf.length := by omega
      subst hieq
      rw [if_neg (by omega), if_pos (by omega), List.take_length]

theorem update_render_toOption (l : List Char) (h : ∀ c ∈ l, validChar c) :
    (update_render l).toOption = some (renderSpec l 0, specIdx l) := by
  rw [update_render_ok l h]; rfl

theorem byteLen_take_add_drop (l : List Char) (i : Nat) :
    byteLen l = byteLen (l.take i) + byteLen (l.drop i) := by
  conv_lhs => rw [← List.take_append_drop i l]
  rw [byteLen_append]

theorem byteLen_take_lt {l : List Char} {i : Nat} (h : i < l.length) :
    byteLen (l.take i) < byteLen l := by
  have hd : l.drop i ≠ [] := by
    intro h0
    have := List.drop_eq_nil_iff_le.mp h0
    omega
  cases hdrop : l.drop i with
  | nil => exact absurd hdrop hd
  | cons c cs =>
    have h1 := byteLen_take_add_drop l i
    rw [hdrop, byteLen_cons] at h1
    have h2 := charSize_pos c
    omega

theorem Row.emptyRow_wf : Row.emptyRow.wf := by decide

theorem Row.new_ok (l : List Char) (h : ∀ c ∈ l, validChar c) :
    Row.new l = .ok ⟨l, renderSpec l 0, specIdx l⟩ := by
  unfold Row.new
  rw [update_render_ok l h]

theorem Row.new_wf {l : List Char} {r : Row} (h : Row.new l = .ok r) :
    r.buf = l ∧ r.wf := by
  unfold Row.new at h
  cases hur : update_render l with
  | error e => rw [hur] at h; exact Except.noConfusion h
  | ok p =>
    rw [hur] at h
    cases h
    exact ⟨rfl, hur⟩

theorem Row.new_invalid (l : List Char) (h : ∃ c ∈ l, ¬ validChar c) :
    ∃ c ∈ l, ¬ validChar c ∧ Row.new l = .error (.ControlCharInText c) := by
  obtain ⟨c, hc, hnc, herr⟩ := update_render_invalid l h
  refine ⟨c, hc, hnc, ?_⟩
  unfold Row.new
  rw [herr]

theorem Row.insert_char_ok {r : Row} (hwf : r.wf) {i : Nat} (hi : i ≤ r.buf.length)
    {c : Char} (hc : validChar c) :
    ∃ r', r.insert_char i c = some r' ∧
      r'.buf = r.buf.take i ++ c :: r.buf.drop i ∧ r'.wf := by
  have hlen := Row.wf_len hwf
  set buf' := r.buf.take i ++ c :: r.buf.drop i with hbuf'
  have hvalid : ∀ x ∈ buf', validChar x := by
    intro x hx
    rcases List.mem_append.mp hx with hx | hx
    · exact Row.wf_valid hwf x (List.mem_of_mem_take hx)
    · rcases List.mem_cons.mp hx with rfl | hx
      · exact hc
      · exact Row.wf_valid hwf x (List.mem_of_mem_drop hx)
  refine ⟨⟨buf', renderSpec buf' 0, specIdx buf'⟩, ?_, rfl, Row.wf_mk buf' hvalid⟩
  unfold Row.insert_char
  by_cases hle : r.len ≤ i
  · have hieq : i = r.buf.length := by omega
    have hbeq : r.buf ++ [c] = buf' := by
      rw [hbuf', hieq, List.take_length, List.drop_length]
    rw [if_pos hle]
    simp only [Option.pure_def, Option.bind_some, Option.bind_eq_bind, Option.some_bind, hbeq,
      update_render_toOption buf' hvalid]
  · have hilt : i < r.buf.length := by omega
    rw [if_neg hle]
    rw [Row.byte_idx_of_wf hwf i (le_of_lt hilt)]
    have hins : insertAtByte r.buf (byteLen (r.buf.take i)) c = some buf' := by
      unfold insertAtByte
      rw [splitAtByte_take]
      rfl
    simp only [Option.bind_eq_bind, Option.some_bind, hins,
      update_render_toOption buf' hvalid]
    rfl

theorem Row.append_ok {r : Row} (hwf : r.wf) {s : List Char}
    (hs : ∀ c ∈ s, validChar c) :
    ∃ r', r.append s = some r' ∧ r'.buf = r.buf ++ s ∧ r'.wf := by
  unfold Row.append
  by_cases hnil : s = []
  · subst hnil
    exact ⟨r, by rw [if_pos rfl], by simp, hwf⟩
  · have hvalid : ∀ x ∈ r.buf ++ s, validChar x := by
      intro x hx
      rcases List.mem_append.mp hx with hx | hx
      · exact Row.wf_valid hwf x hx
      · exact hs x hx
    refine ⟨⟨r.buf ++ s, renderSpec (r.buf ++ s) 0, specIdx (r.buf ++ s)⟩, ?_, rfl,
      Row.wf_mk _ hvalid⟩
    rw [if_neg hnil]
    simp only [Option.bind_eq_bind, update_render_toOption _ hvalid, Option.some_bind]
    rfl

theorem Row.truncate_ok {r : Row} (hwf : r.wf) (i : Nat) :
    ∃ r', r.truncate i = some r' ∧ r'.buf = r.buf.take i ∧ r'.wf := by
  have hlen := Row.wf_len hwf
  unfold Row.truncate
  by_cases hlt : i < r.len
  · have hilt : i < r.buf.length := by omega
    have hvalid : ∀ x ∈ r.buf.take i, validChar x := fun x hx =>
      Row.wf_valid hwf x (List.mem_of_mem_take hx)
    refine ⟨⟨r.buf.take i, renderSpec (r.buf.take i) 0, specIdx (r.buf.take i)⟩, ?_, rfl,
      Row.wf_mk _ hvalid⟩
    rw [if_pos hlt, Row.byte_idx_of_wf hwf i (le_of_lt hilt)]
    have htr : truncateAtByte r.buf (byteLen (r.buf.take i)) = some (r.buf.take i) := by
      unfold truncateAtByte
      rw [if_neg (by have := byteLen_take_lt hilt; omega), splitAtByte_take]
      rfl
    simp only [Option.bind_eq_bind, Option.some_bind, htr,
      update_render_toOption _ hvalid]
    rfl
  · have hge : r.buf.length ≤ i := by omega
    rw [if_neg hlt]
    exact ⟨r, rfl, by rw [List.take_of_length_le hge], hwf⟩

theorem Row.remove_char_ok {r : Row} (hwf : r.wf) {i : Nat} (hi : i < r.buf.length) :
    ∃ r', r.remove_char i = some r' ∧
      r'.buf = r.buf.take i ++ r.buf.drop (i + 1) ∧ r'.wf := by
  set buf' := r.buf.take i ++ r.buf.drop (i + 1) with hbuf'
  have hvalid : ∀ x ∈ buf', validChar x := by
    intro x hx
    rcases List.mem_append.mp hx with hx | hx
    · exact Row.wf_valid hwf x (List.mem_of_mem_take hx)
    · exact Row.wf_valid hwf x (List.mem_of_mem_drop hx)
  refine ⟨⟨buf', renderSpec buf' 0, specIdx buf'⟩, ?_, rfl, Row.wf_mk _ hvalid⟩
  unfold Row.remove_char
  rw [Row.byte_idx_of_wf hwf i (le_of_lt hi)]
  have hrm : removeAtByte r.buf (byteLen (r.buf.take i)) = some buf' := by
    unfold removeAtByte
    rw [splitAtByte_take, List.drop_eq_getElem_cons hi]
  simp only [Option.bind_eq_bind, Option.some_bind, hrm,
    update_render_toOption _ hvalid]
  rfl

theorem Row.remove_ok {r : Row} (hwf : r.wf) {s e : Nat} (hse : s < e)
    (he : e ≤ r.buf.length) :
    ∃ r', r.remove s e = some r' ∧
      r'.buf = r.buf.take s ++ r.buf.drop e ∧ r'.wf := by
  set buf' := r.buf.take s ++ r.buf.drop e with hbuf'
  have hvalid : ∀ x ∈ buf', validChar x := by
    intro x hx
    rcases List.mem_append.mp hx with hx | hx
    · exact Row.wf_valid hwf x (List.mem_of_mem_take hx)
    · exact Row.wf_valid hwf x (List.mem_of_mem_drop hx)
  refine ⟨⟨buf', renderSpec buf' 0, specIdx buf'⟩, ?_, rfl, Row.wf_mk _ hvalid⟩
  unfold Row.remove
  rw [if_pos hse, Row.byte_idx_of_wf hwf s (by omega), Row.byte_idx_of_wf hwf e he]
  have hmono : byteLen (r.buf.take s) ≤ byteLen (r.buf.take e) := by
    have h1 : r.buf.take s = (r.buf.take e).take s := by
      rw [List.take_take, Nat.min_eq_left (by omega)]
    rw [h1]
    have h2 := byteLen_take_add_drop (r.buf.take e) s
    omega
  have hmid : byteLen (r.buf.take e) - byteLen (r.buf.take s) =
      byteLen ((r.buf.drop s).take (e - s)) := by
    have h1 : (r.buf.drop s).take (e - s) = (r.buf.take e).drop s := by
      rw [List.drop_take]
    have h2 : r.buf.take s = (r.buf.take e).take s := by
      rw [List.take_take, Nat.min_eq_left (by omega)]
    have h3 := byteLen_take_add_drop (r.buf.take e) s
    rw [h1]
    rw [← h2] at h3
    omega
  have hdrain : drainBytes r.buf (byteLen (r.buf.take s)) (byteLen (r.buf.take e)) =
      some buf' := by
    unfold drainBytes
    rw [if_neg (by omega), splitAtByte_take]
    simp only [Option.some_bind]
    rw [hmid, splitAtByte_take]
    simp only [Option.map_some', Option.some.injEq, List.drop_drop]
    rw [hbuf']
    have hes : s + (e - s) = e := by omega
    rw [hes]
  simp only [Option.bind_eq_bind, Option.some_bind, hdrain,
    update_render_toOption _ hvalid]
  rfl

theorem Row.char_at_checked_wf {r : Row} (hwf : r.wf) {i : Nat} (hi : i < r.buf.length) :
    r.char_at_checked i = r.buf.get? i := by
  unfold Row.char_at_checked
  rw [Row.byte_idx_of_wf hwf i (le_of_lt hi)]
  simp only [Option.bind_eq_bind, Option.some_bind, splitAtByte_take]
  rw [List.drop_eq_getElem_cons hi]
  simp [List.get?_eq_getElem?, List.getElem?_eq_getElem hi]

theorem Row.sliceFrom_wf {r : Row} (hwf : r.wf) {i : Nat} (hi : i ≤ r.buf.length) :
    r.sliceFrom i = some (r.buf.drop i) := by
  unfold Row.sliceFrom
  rw [Row.byte_idx_of_wf hwf i hi]
  simp [splitAtByte_take]

theorem Row.insert_char_invalid (r : Row) (i : Nat) {c : Char} (hc : ¬ validChar c) :
    r.insert_char i c = none := by
  unfold Row.insert_char
  have hfail : ∀ buf' : List Char, c ∈ buf' → (update_render buf').toOption = none := by
    intro buf' hmem
    obtain ⟨x, _, _, herr⟩ := update_render_invalid buf' ⟨c, hmem, hc⟩
    rw [herr]
    rfl
  by_cases hle : r.len ≤ i
  · rw [if_pos hle]
    simp only [Option.pure_def, Option.bind_eq_bind, Option.some_bind,
      hfail _ (List.mem_append.mpr (Or.inr (List.mem_singleton.mpr rfl))), Option.none_bind]
  · rw [if_neg hle]
    cases hb : r.byte_idx_of i with
    | none => rfl
    | some b =>
      cases hins : insertAtByte r.buf b c with
      | none => simp [Option.bind_eq_bind, Option.some_bind, hins]
      | some buf' =>
        have hmem : c ∈ buf' := by
          unfold insertAtByte at hins
          cases hsp : splitAtByte r.buf b with
          | none => rw [hsp] at hins; exact Option.noConfusion hins
          | some pq =>
            rw [hsp] at hins
            simp only [Option.map_some', Option.some.injEq] at hins
            rw [← hins]
            exact List.mem_append.mpr (Or.inr (List.mem_cons_self ..))
        simp [Option.bind_eq_bind, Option.some_bind, hins, hfail _ hmem]

theorem Row.append_invalid (r : Row) {s : List Char} {c : Char} (hcs : c ∈ s)
    (hc : ¬ validChar c) : r.append s = none := by
  unfold Row.append
  have hnil : s ≠ [] := by
    intro h0; rw [h0] at hcs; exact absurd hcs (List.not_mem_nil c)
  rw [if_neg hnil]
  obtain ⟨x, _, _, herr⟩ :=
    update_render_invalid (r.buf ++ s) ⟨c, List.mem_append.mpr (Or.inr hcs), hc⟩
  simp [Option.bind_eq_bind, herr, Except.toOption]

/-- `UndoRedo` of `edit_diff.rs`. -/
inductive UndoRedo where
  | Undo
  | Redo
deriving DecidableEq, Repr

/-- `EditDiff` of `edit_diff.rs`: the seven reversible edit operations. -/
inductive EditDiff where
  | InsertChar (x y : Nat) (c : Char)
  | DeleteChar (x y : Nat) (c : Char)
  | Append (y : Nat) (s : List Char)
  | Truncate (y : Nat) (s : List Char)
  | Newline
  | InsertLine (y : Nat) (s : List Char)
  | DeleteLine (y : Nat) (s : List Char)
deriving DecidableEq, Repr

/-- `EditDiff::apply`: mutate the row collection in the given direction and
report the resulting cursor. Rust panics (out-of-range indexing, `usize`
underflow, `unwrap`, and the `debug_assert` of `Newline`'s backward branch)
are modelled as `none`. `Vec::insert`/`Vec::remove` are written with
`take`/`drop`, guarded exactly where the Rust methods panic. -/
def EditDiff.apply (d : EditDiff) (rows : List Row) (which : UndoRedo) :
    Option (List Row × Nat × Nat) :=
  match d, which with
  | .InsertChar x y c, .Redo => do
    let r ← rows.get? y
    let r' ← r.insert_char x c
    pure (rows.set y r', x + 1, y)
  | .InsertChar x y _, .Undo => do
    let r ← rows.get? y
    let r' ← r.remove_char x
    pure (rows.set y r', x, y)
  | .DeleteChar x y _, .Redo => do
    let x1 ← usizeSub x 1
    let r ← rows.get? y
    let r' ← r.remove_char x1
    pure (rows.set y r', x1, y)
  | .DeleteChar x y c, .Undo => do
    let x1 ← usizeSub x 1
    let r ← rows.get? y
    let r' ← r.insert_char x1 c
    pure (rows.set y r', x, y)
  | .Append y s, .Redo => do
    let r ← rows.get? y
    let r' ← r.append s
    pure (rows.set y r', r.len, y)
  | .Append y s, .Undo => do
    let r ← rows.get? y
    let start ← usizeSub r.len s.length
    let r' ← r.remove start r.len
    pure (rows.set y r', r'.len, y)
  | .Truncate y s, .Redo => do
    let r ← rows.get? y
    let a ← usizeSub r.len s.length
    let r' ← r.truncate a
    pure (rows.set y r', a, y)
  | .Truncate y s, .Undo => do
    let r ← rows.get? y
    let r' ← r.append s
    let x ← usizeSub r'.len s.length
    pure (rows.set y r', x, y)
  | .Newline, .Redo =>
    some (rows ++ [Row.emptyRow], 0, (rows ++ [Row.emptyRow]).length - 1)
  | .Newline, .Undo => do
    let last ← rows.get? (rows.length - 1)
    if last.buf = [] then
      pure (rows.dropLast, 0, rows.dropLast.length)
    else none
  | .InsertLine y s, .Redo => do
    let r ← (Row.new s).toOption
    if y ≤ rows.length then
      pure (rows.take y ++ r :: rows.drop y, 0, y)
    else none
  | .InsertLine y _, .Undo =>
    if y < rows.length then do
      let y1 ← usizeSub y 1
      let r ← (rows.take y ++ rows.drop (y + 1)).get? y1
      pure (rows.take y ++ rows.drop (y + 1), r.len, y1)
    else none
  | .DeleteLine y _, .Redo => do
    let lm1 ← usizeSub rows.length 1
    let rows' ←
      if y = lm1 then some rows.dropLast
      else if y < rows.length then some (rows.take y ++ rows.drop (y + 1))
      else none
    let y1 ← usizeSub y 1
    let r ← rows'.get? y1
    pure (rows', r.len, y1)
  | .DeleteLine y s, .Undo => do
    let r ← (Row.new s).toOption
    if y = rows.length then
      pure (rows ++ [r], 0, y)
    else if y < rows.length then
      pure (rows.take y ++ r :: rows.drop y, 0, y)
    else none

/-- The precondition under which an operation's forward (`Redo`)
application succeeds and is inverted exactly by its backward (`Undo`)
application — the circumstances under which the program ever records the
operation. -/
def EditDiff.pre (d : EditDiff) (rows : List Row) : Prop :=
  match d with
  | .InsertChar x y c => ∃ r, rows.get? y = some r ∧ x ≤ r.buf.length ∧ validChar c
  | .DeleteChar x y c =>
    ∃ r, rows.get? y = some r ∧ 1 ≤ x ∧ x ≤ r.buf.length ∧ r.buf.get? (x - 1) = some c
  | .Append y s => (∃ r, rows.get? y = some r) ∧ ∀ c ∈ s, validChar c
  | .Truncate y s => ∃ r, rows.get? y = some r ∧ ∃ p, r.buf = p ++ s
  | .Newline => True
  | .InsertLine y s => 1 ≤ y ∧ y ≤ rows.length ∧ ∀ c ∈ s, validChar c
  | .DeleteLine y s => ∃ r, rows.get? y = some r ∧ 1 ≤ y ∧ s = r.buf

/-- Rows are good when at least one is present and all are well-formed. -/
def GoodRows (rows : List Row) : Prop := rows ≠ [] ∧ ∀ r ∈ rows, r.wf

/-- A cursor valid for a row collection: the row index is at most the row
count (the past-last-line sentinel), the column fits the addressed row, and
at the sentinel the column is zero. -/
def cursorOk (x y : Nat) (rows : List Row) : Prop :=
  y ≤ rows.length ∧
  (∀ r, rows.get? y = some r → x ≤ r.buf.length) ∧
  (y = rows.length → x = 0)

theorem set_of_get? {α : Type} (l : List α) (i : Nat) (a : α)
    (h : l.get? i = some a) : l.set i a = l := by
  apply List.ext_get?_iff.mpr
  intro j
  have hlt : i < l.length := by
    by_contra hge
    rw [List.get?_eq_none.mpr (by omega)] at h
    exact Option.noConfusion h
  by_cases hij : i = j
  · subst hij
    rw [List.get?_set_eq_of_lt a hlt, h]
  · rw [List.get?_set_ne a _ (fun hx => hij hx)]

theorem GoodRows_set {rows : List Row} {y : Nat} {r' : Row}
    (hg : GoodRows rows) (hwf : r'.wf) : GoodRows (rows.set y r') := by
  obtain ⟨hne, hall⟩ := hg
  constructor
  · intro h0
    have := congrArg List.length h0
    rw [List.length_set] at this
    exact hne (List.length_eq_zero.mp this)
  · intro x hx
    rcases List.mem_or_eq_of_mem_set hx with hx | rfl
    · exact hall x hx
    · exact hwf

theorem get?_mem {α : Type} {l : List α} {i : Nat} {a : α}
    (h : l.get? i = some a) : a ∈ l := List.get?_mem h

theorem get?_lt_length {α : Type} {l : List α} {i : Nat} {a : α}
    (h : l.get? i = some a) : i < l.length := by
  by_contra hge
  rw [List.get?_eq_none.mpr (by omega)] at h
  exact Option.noConfusion h

theorem cursorOk_of_set {rows : List Row} {y : Nat} {r' : Row} {x : Nat}
    (hy : y < rows.length) (hx : x ≤ r'.buf.length) :
    cursorOk x y (rows.set y r') := by
  refine ⟨by rw [List.length_set]; omega, ?_, by rw [List.length_set]; omega⟩
  intro rr hrr
  rw [List.get?_set_eq_of_lt r' hy] at hrr
  cases hrr
  exact hx

theorem cursorOk_of_get? {rows : List Row} {y : Nat} {r : Row} {x : Nat}
    (hget : rows.get? y = some r) (hx : x ≤ r.buf.length) : cursorOk x y rows := by
  have hy : y < rows.length := get?_lt_length hget
  refine ⟨by omega, ?_, by omega⟩
  intro rr hrr
  rw [hget] at hrr
  cases hrr
  exact hx

theorem insert_take_drop {α : Type} {l : List α} {x : Nat} (hx : x ≤ l.length) (c : α) :
    (l.take x ++ c :: l.drop x).take x = l.take x ∧
    (l.take x ++ c :: l.drop x).drop (x + 1) = l.drop x ∧
    (l.take x ++ c :: l.drop x).length = l.length + 1 := by
  have ht : (l.take x).length = x := by
    rw [List.length_take]; omega
  refine ⟨?_, ?_, by simp; omega⟩
  · have h0 := List.take_left (l.take x) (c :: l.drop x)
    rw [ht] at h0
    exact h0
  · have h1 := List.drop_left (l.take x ++ [c]) (l.drop x)
    have hlen1 : (l.take x ++ [c]).length = x + 1 := by
      simp [ht]
    rw [hlen1] at h1
    simpa using h1

theorem take_cons_drop_of_get? {α : Type} {l : List α} {i : Nat} {c : α}
    (h : l.get? i = some c) : l.take i ++ c :: l.drop (i + 1) = l := by
  have hi : i < l.length := get?_lt_length h
  have hc : l[i] = c := by
    have := List.get?_eq_some.mp h
    obtain ⟨hlt, hg⟩ := this
    simpa using hg
  conv_rhs => rw [← List.take_append_drop i l, List.drop_eq_getElem_cons hi]
  rw [hc]

/-- The round-trip property of each operation: under the operation's own
precondition, the forward application succeeds, and the backward
application from the resulting state succeeds and restores exactly the rows
that were present before, both applications reporting valid cursors. -/
def RoundTrips (d : EditDiff) (rows : List Row) : Prop :=
  ∃ rows' xr yr xu yu,
    d.apply rows .Redo = some (rows', xr, yr) ∧
    GoodRows rows' ∧ cursorOk xr yr rows' ∧
    d.apply rows' .Undo = some (rows, xu, yu) ∧
    cursorOk xu yu rows

theorem roundtrip_insertChar {rows : List Row} {x y : Nat} {c : Char}
    (hg : GoodRows rows) (hp : (EditDiff.InsertChar x y c).pre rows) :
    RoundTrips (EditDiff.InsertChar x y c) rows := by
  obtain ⟨r, hget, hx, hc⟩ := hp
  have hy : y < rows.length := get?_lt_length hget
  have hwf : r.wf := hg.2 r (get?_mem hget)
  obtain ⟨r', hins, hbuf', hwf'⟩ := Row.insert_char_ok hwf hx hc
  obtain ⟨htk, hdr, hlen'⟩ := insert_take_drop hx c
  have hlenr' : r'.buf.length = r.buf.length + 1 := by rw [hbuf', hlen']
  obtain ⟨r'', hrm, hbuf'', hwf''⟩ := @Row.remove_char_ok r' hwf' x (by omega)
  have hr'' : r'' = r := by
    apply Row.wf_unique hwf'' hwf
    rw [hbuf'', hbuf', htk, hdr, List.take_append_drop]
  refine ⟨rows.set y r', x + 1, y, x, y, ?_, GoodRows_set hg hwf',
    @cursorOk_of_set rows y r' (x + 1) hy (by omega), ?_, cursorOk_of_get? hget hx⟩
  · simp only [EditDiff.apply, Option.bind_eq_bind, hget, Option.some_bind, hins]
    rfl
  · simp only [EditDiff.apply, Option.bind_eq_bind, List.get?_set_eq_of_lt r' hy,
      Option.some_bind, hrm, hr'']
    rw [List.set_set, set_of_get? rows y r hget]
    rfl

theorem usizeSub_of_le {a b : Nat} (h : b ≤ a) : usizeSub a b = some (a - b) := by
  unfold usizeSub; rw [if_pos h]

theorem delete_take_drop {α : Type} {l : List α} {i : Nat} (hi : i < l.length) :
    (l.take i ++ l.drop (i + 1)).take i = l.take i ∧
    (l.take i ++ l.drop (i + 1)).drop i = l.drop (i + 1) ∧
    (l.take i ++ l.drop (i + 1)).length = l.length - 1 := by
  have ht : (l.take i).length = i := by rw [List.length_take]; omega
  refine ⟨?_, ?_, by simp [List.length_drop, ht]; omega⟩
  · have h0 := List.take_left (l.take i) (l.drop (i + 1))
    rw [ht] at h0
    exact h0
  · have h0 := List.drop_left (l.take i) (l.drop (i + 1))
    rw [ht] at h0
    exact h0

theorem roundtrip_deleteChar {rows : List Row} {x y : Nat} {c : Char}
    (hg : GoodRows rows) (hp : (EditDiff.DeleteChar x y c).pre rows) :
    RoundTrips (EditDiff.DeleteChar x y c) rows := by
  obtain ⟨r, hget, hx1, hxle, hcx⟩ := hp
  have hy : y < rows.length := get?_lt_length hget
  have hwf : r.wf := hg.2 r (get?_mem hget)
  have hxlt : x - 1 < r.buf.length := by omega
  obtain ⟨r', hrm, hbuf', hwf'⟩ := @Row.remove_char_ok r hwf (x - 1) hxlt
  obtain ⟨htk, hdr, hlen'⟩ := delete_take_drop hxlt
  have hlenr' : r'.buf.length = r.buf.length - 1 := by rw [hbuf', hlen']
  have hcvalid : validChar c := Row.wf_valid hwf c (get?_mem hcx)
  obtain ⟨r'', hins, hbuf'', hwf''⟩ := @Row.insert_char_ok r' hwf' (x - 1) (by omega) c hcvalid
  have hr'' : r'' = r := by
    apply Row.wf_unique hwf'' hwf
    rw [hbuf'', hbuf', htk, hdr]
    have hx1' : x - 1 + 1 = x := by omega
    rw [← hx1'] at hcx ⊢
    exact take_cons_drop_of_get? hcx
  refine ⟨rows.set y r', x - 1, y, x, y, ?_, GoodRows_set hg hwf',
    @cursorOk_of_set rows y r' (x - 1) hy (by omega), ?_, cursorOk_of_get? hget hxle⟩
  · simp only [EditDiff.apply, Option.bind_eq_bind, usizeSub_of_le hx1, Option.some_bind,
      hget, hrm]
    rfl
  · simp only [EditDiff.apply, Option.bind_eq_bind, usizeSub_of_le hx1, Option.some_bind,
      List.get?_set_eq_of_lt r' hy, hins, hr'']
    rw [List.set_set, set_of_get? rows y r hget]
    rfl

theorem roundtrip_append {rows : List Row} {y : Nat} {s : List Char}
    (hg : GoodRows rows) (hp : (EditDiff.Append y s).pre rows) :
    RoundTrips (EditDiff.Append y s) rows := by
  obtain ⟨⟨r, hget⟩, hs⟩ := hp
  have hy : y < rows.length := get?_lt_length hget
  have hwf : r.wf := hg.2 r (get?_mem hget)
  obtain ⟨r', happ, hbuf', hwf'⟩ := Row.append_ok hwf hs
  have hlen := Row.wf_len hwf
  have hlen' := Row.wf_len hwf'
  have hlenb' : r'.buf.length = r.buf.length + s.length := by
    rw [hbuf', List.length_append]
  by_cases hnil : s = []
  · subst hnil
    have hr' : r' = r := by
      apply Row.wf_unique hwf' hwf
      rw [hbuf', List.append_nil]
    subst hr'
    refine ⟨rows.set y r', r'.len, y, r'.len, y, ?_,
      GoodRows_set hg hwf', @cursorOk_of_set rows y r' r'.len hy (by omega),
      ?_, cursorOk_of_get? hget (by omega)⟩
    · simp only [EditDiff.apply, Option.bind_eq_bind, hget, Option.some_bind, happ]
      rfl
    · have hnoop : r'.remove r'.len r'.len = some r' := by
        unfold Row.remove
        rw [if_neg (by omega)]
      simp only [EditDiff.apply, Option.bind_eq_bind, List.get?_set_eq_of_lt r' hy,
        Option.some_bind, List.length_nil, usizeSub_of_le (Nat.zero_le r'.len),
        Nat.sub_zero, hnoop]
      simp only [Option.pure_def, Option.some_bind]
      rw [List.set_set, set_of_get? rows y r' hget]
  · have hslen : 0 < s.length := List.length_pos.mpr hnil
    obtain ⟨r'', hrm, hbuf'', hwf''⟩ := @Row.remove_ok r' hwf' r.buf.length r'.buf.length
      (by omega) (le_refl _)
    have hr'' : r'' = r := by
      apply Row.wf_unique hwf'' hwf
      rw [hbuf'', hbuf']
      have h1 := List.take_left r.buf s
      have h2 : (r.buf ++ s).drop (r.buf ++ s).length = [] := by
        rw [List.drop_length]
      rw [h1, h2, List.append_nil]
    refine ⟨rows.set y r', r.len, y, r''.len, y, ?_,
      GoodRows_set hg hwf', @cursorOk_of_set rows y r' r.len hy (by omega),
      ?_, cursorOk_of_get? hget (by rw [hr'']; omega)⟩
    · simp only [EditDiff.apply, Option.bind_eq_bind, hget, Option.some_bind, happ]
      rfl
    · simp only [EditDiff.apply, Option.bind_eq_bind, List.get?_set_eq_of_lt r' hy,
        Option.some_bind]
      have hsub : usizeSub r'.len s.length = some r.buf.length := by
        rw [usizeSub_of_le (by omega)]
        congr 1
        omega
      rw [hsub]
      simp only [Option.some_bind]
      have hstop : r'.len = r'.buf.length := hlen'
      rw [hstop, hrm]
      simp only [Option.some_bind, Option.pure_def, hr'']
      rw [List.set_set, set_of_get? rows y r hget]

theorem roundtrip_truncate {rows : List Row} {y : Nat} {s : List Char}
    (hg : GoodRows rows) (hp : (EditDiff.Truncate y s).pre rows) :
    RoundTrips (EditDiff.Truncate y s) rows := by
  obtain ⟨r, hget, p, hps⟩ := hp
  have hy : y < rows.length := get?_lt_length hget
  have hwf : r.wf := hg.2 r (get?_mem hget)
  have hlen := Row.wf_len hwf
  have hplen : r.buf.length = p.length + s.length := by rw [hps]; simp
  have hsub : usizeSub r.len s.length = some p.length := by
    rw [usizeSub_of_le (by omega)]
    congr 1
    omega
  obtain ⟨r', htr, hbuf', hwf'⟩ := Row.truncate_ok hwf p.length
  have hbufp : r'.buf = p := by
    rw [hbuf', hps, List.take_left]
  have hsvalid : ∀ c ∈ s, validChar c := fun c hc =>
    Row.wf_valid hwf c (by rw [hps]; exact List.mem_append.mpr (Or.inr hc))
  obtain ⟨r'', happ, hbuf'', hwf''⟩ := Row.append_ok hwf' hsvalid
  have hr'' : r'' = r := by
    apply Row.wf_unique hwf'' hwf
    rw [hbuf'', hbufp, hps]
  subst hr''
  have hlen'' := Row.wf_len hwf''
  have hsub2 : usizeSub r''.len s.length = some p.length := by
    rw [usizeSub_of_le (by omega)]
    congr 1
    omega
  refine ⟨rows.set y r', p.length, y, p.length, y, ?_, GoodRows_set hg hwf',
    @cursorOk_of_set rows y r' p.length hy (by simp [hbufp]), ?_,
    cursorOk_of_get? hget (by omega)⟩
  · simp only [EditDiff.apply, Option.bind_eq_bind, hget, Option.some_bind, hsub, htr]
    rfl
  · simp only [EditDiff.apply, Option.bind_eq_bind, List.get?_set_eq_of_lt r' hy,
      Option.some_bind, happ, hsub2]
    rw [List.set_set, set_of_get? rows y r'' hget]
    rfl

theorem roundtrip_newline {rows : List Row} (hg : GoodRows rows) :
    RoundTrips EditDiff.Newline rows := by
  refine ⟨rows ++ [Row.emptyRow], 0, (rows ++ [Row.emptyRow]).length - 1, 0, rows.length,
    rfl, ?_, ?_, ?_, ?_⟩
  · constructor
    · simp
    · intro x hx
      rcases List.mem_append.mp hx with hx | hx
      · exact hg.2 x hx
      · rw [List.mem_singleton.mp hx]
        exact Row.emptyRow_wf
  · refine ⟨by simp, fun rr _ => Nat.zero_le _, fun _ => rfl⟩
  · have hidx : (rows ++ [Row.emptyRow]).length - 1 = rows.length := by simp
    simp only [EditDiff.apply, Option.bind_eq_bind, hidx, List.get?_concat_length,
      Option.some_bind]
    rw [if_pos (show Row.emptyRow.buf = [] by rfl), List.dropLast_concat]
    rfl
  · exact ⟨le_refl _, fun rr _ => Nat.zero_le _, fun _ => rfl⟩

theorem roundtrip_insertLine {rows : List Row} {y : Nat} {s : List Char}
    (hg : GoodRows rows) (hp : (EditDiff.InsertLine y s).pre rows) :
    RoundTrips (EditDiff.InsertLine y s) rows := by
  obtain ⟨hy1, hyle, hs⟩ := hp
  have hlenpos : 1 ≤ rows.length := by omega
  have hnew := Row.new_ok s hs
  have hrwf : Row.wf ⟨s, renderSpec s 0, specIdx s⟩ := Row.wf_mk s hs
  obtain ⟨htk, hdr, hlen'⟩ :=
    @insert_take_drop Row rows y hyle ⟨s, renderSpec s 0, specIdx s⟩
  have hym1 : y - 1 < rows.length := by omega
  cases hg0 : rows.get? (y - 1) with
  | none => exact absurd (List.get?_eq_none.mp hg0) (by omega)
  | some r0 =>
  have hr0wf : r0.wf := hg.2 r0 (get?_mem hg0)
  have hr0len := Row.wf_len hr0wf
  refine ⟨rows.take y ++ ⟨s, renderSpec s 0, specIdx s⟩ :: rows.drop y, 0, y,
    r0.len, y - 1, ?_, ?_, ?_, ?_, cursorOk_of_get? hg0 (by omega)⟩
  · have hnewopt : (Row.new s).toOption = some ⟨s, renderSpec s 0, specIdx s⟩ := by
      rw [hnew]; rfl
    simp only [EditDiff.apply, Option.bind_eq_bind, hnewopt, Option.some_bind]
    rw [if_pos hyle]
    rfl
  · constructor
    · intro h0
      have := congrArg List.length h0
      rw [hlen'] at this
      simp at this
    · intro x hx
      rcases List.mem_append.mp hx with hx | hx
      · exact hg.2 x (List.mem_of_mem_take hx)
      · rcases List.mem_cons.mp hx with rfl | hx
        · exact hrwf
        · exact hg.2 x (List.mem_of_mem_drop hx)
  · exact ⟨by rw [hlen']; omega, fun rr _ => Nat.zero_le _, fun _ => rfl⟩
  · simp only [EditDiff.apply]
    rw [if_pos (by rw [hlen']; omega)]
    simp only [Option.bind_eq_bind, usizeSub_of_le hy1, Option.some_bind]
    rw [htk, hdr, List.take_append_drop, hg0]
    rfl

theorem roundtrip_deleteLine {rows : List Row} {y : Nat} {s : List Char}
    (hg : GoodRows rows) (hp : (EditDiff.DeleteLine y s).pre rows) :
    RoundTrips (EditDiff.DeleteLine y s) rows := by
  obtain ⟨r, hget, hy1, hsbuf⟩ := hp
  have hy : y < rows.length := get?_lt_length hget
  have hwf : r.wf := hg.2 r (get?_mem hget)
  have hsval : ∀ c ∈ s, validChar c := fun c hc =>
    Row.wf_valid hwf c (by rw [← hsbuf]; exact hc)
  have hnew := Row.new_ok s hsval
  have hreq : (⟨s, renderSpec s 0, specIdx s⟩ : Row) = r :=
    Row.wf_unique (Row.wf_mk s hsval) hwf (by simpa using hsbuf)
  have hnewopt : (Row.new s).toOption = some r := by
    rw [hnew, hreq]; rfl
  obtain ⟨htk, hdr, hlen'⟩ := @delete_take_drop Row rows y hy
  have hdl : y = rows.length - 1 → rows.dropLast = rows.take y ++ rows.drop (y + 1) := by
    intro hylast
    have hdroplen : rows.drop (y + 1) = [] := by
      rw [List.drop_eq_nil_iff_le]
      omega
    rw [List.dropLast_eq_take, hdroplen, List.append_nil, hylast]
  have hym1 : y - 1 < rows.length := by omega
  cases hg0 : rows.get? (y - 1) with
  | none => exact absurd (List.get?_eq_none.mp hg0) (by omega)
  | some r0 =>
  have hr0wf : r0.wf := hg.2 r0 (get?_mem hg0)
  have hr0len := Row.wf_len hr0wf
  have hg0' : (rows.take y ++ rows.drop (y + 1)).get? (y - 1) = some r0 := by
    rw [List.get?_append (by rw [List.length_take]; omega)]
    rw [List.get?_take (by omega)]
    exact hg0
  refine ⟨rows.take y ++ rows.drop (y + 1), r0.len, y - 1, 0, y, ?_, ?_,
    cursorOk_of_get? hg0' (by omega), ?_,
    ⟨by omega, fun rr _ => Nat.zero_le _, fun _ => rfl⟩⟩
  · simp only [EditDiff.apply, Option.bind_eq_bind,
      usizeSub_of_le (show 1 ≤ rows.length by omega), Option.some_bind,
      usizeSub_of_le hy1]
    by_cases hylast : y = rows.length - 1
    · rw [if_pos hylast, hdl hylast, hg0']
      rfl
    · rw [if_neg hylast, if_pos hy, hg0']
      rfl
  · constructor
    · intro h0
      have := congrArg List.length h0
      rw [hlen'] at this
      simp at this
      omega
    · intro x hx
      rcases List.mem_append.mp hx with hx | hx
      · exact hg.2 x (List.mem_of_mem_take hx)
      · exact hg.2 x (List.mem_of_mem_drop hx)
  · simp only [EditDiff.apply, Option.bind_eq_bind, hnewopt, Option.some_bind]
    have hlen'' : (rows.take y ++ rows.drop (y + 1)).length = rows.length - 1 := hlen'
    by_cases hylast : y = rows.length - 1
    · rw [if_pos (by omega)]
      have hdroplen : rows.drop (y + 1) = [] := by
        rw [List.drop_eq_nil_iff_le]
        omega
      have hrows : rows.take y ++ rows.drop (y + 1) ++ [r] = rows := by
        rw [hdroplen, List.append_nil]
        have h1 := take_cons_drop_of_get? hget
        rw [hdroplen] at h1
        simpa using h1
      rw [hrows]
      rfl
    · rw [if_neg (by omega), if_pos (by omega)]
      rw [htk, hdr]
      rw [take_cons_drop_of_get? hget]
      rfl

theorem EditDiff.apply_roundtrip (d : EditDiff) (rows : List Row)
    (hg : GoodRows rows) (hp : d.pre rows) : RoundTrips d rows := by
  cases d with
  | InsertChar x y c => exact roundtrip_insertChar hg hp
  | DeleteChar x y c => exact roundtrip_deleteChar hg hp
  | Append y s => exact roundtrip_append hg hp
  | Truncate y s => exact roundtrip_truncate hg hp
  | Newline => exact roundtrip_newline hg
  | InsertLine y s => exact roundtrip_insertLine hg hp
  | DeleteLine y s => exact roundtrip_deleteLine hg hp

/-- Run a list of operations in order with one direction, threading the
rows, the cursor of the most recent operation and the minimum row index
touched. -/
def runOpsGo (dir : UndoRedo) :
    List EditDiff → List Row → Nat → Nat → Nat → Option (List Row × Nat × Nat × Nat)
  | [], rows, x, y, m => some (rows, x, y, m)
  | d :: ds, rows, _, _, m =>
    match d.apply rows dir with
    | none => none
    | some (rows', x', y') => runOpsGo dir ds rows' x' y' (min m y')

/-- Run a non-empty list of operations, the minimum row index seeded by the
first operation; the empty list yields `none` (transactions are non-empty). -/
def runOps (dir : UndoRedo) (ds : List EditDiff) (rows : List Row) :
    Option (List Row × Nat × Nat × Nat) :=
  match ds with
  | [] => none
  | d :: ds =>
    match d.apply rows dir with
    | none => none
    | some (rows', x', y') => runOpsGo dir ds rows' x' y' y'

/-- Modelled from the spec: applying a transaction backward runs every
operation in reverse order with the `Undo` direction. -/
def txnUndo (t : List EditDiff) (rows : List Row) : Option (List Row × Nat × Nat × Nat) :=
  runOps .Undo t.reverse rows

/-- Modelled from the spec: applying a transaction forward runs the
operations in order with the `Redo` direction. -/
def txnRedo (t : List EditDiff) (rows : List Row) : Option (List Row × Nat × Nat × Nat) :=
  runOps .Redo t rows

/-- Modelled from the spec: the `history` module is absent from the
sources, so `History` follows §4.3 of the spec — an undo stack of sealed
transactions (most recent first), the ongoing transaction extended by each
newly recorded operation, and a redo stack cleared on record. -/
structure History where
  committed : List (List EditDiff)
  ongoing : List EditDiff
  redoStack : List (List EditDiff)
deriving DecidableEq, Repr

/-- `History::default`: no transactions. -/
def History.dflt : History := ⟨[], [], []⟩

/-- Modelled from the spec: `record` appends the operation to the ongoing
transaction (opening one if none is active) and clears the redo stack. -/
def History.push (h : History) (d : EditDiff) : History :=
  ⟨h.committed, h.ongoing ++ [d], []⟩

/-- Modelled from the spec: `close_active` seals a non-empty ongoing
transaction and reports whether one was actually sealed. -/
def History.finish_ongoing_edit (h : History) : History × Bool :=
  if h.ongoing = [] then (h, false)
  else (⟨h.ongoing :: h.committed, [], h.redoStack⟩, true)

/-- The transactions an undo would consume, most recent first: the ongoing
transaction (sealed on demand by `undo`) followed by the sealed stack. -/
def History.undoList (h : History) : List (List EditDiff) :=
  if h.ongoing = [] then h.committed else h.ongoing :: h.committed

/-- Modelled from the spec: undo applies the most recent transaction (the
ongoing one is first sealed if still open) backward, moves it to the redo
stack, and returns the cursor of the last operation applied, the lowest row
index touched, and whether this undo itself had to seal the ongoing edit.
The inner `none` is the silent nothing-to-undo case; the outer `none` is a
panic while replaying. -/
def History.undoGo (h : History) (rows : List Row) :
    List (List EditDiff) → Option (History × List Row × Option (Nat × Nat × Nat × Bool))
  | [] => some (h, rows, none)
  | t :: rest =>
    match txnUndo t rows with
    | none => none
    | some (rows', x, y, m) =>
      some (⟨rest, [], t :: h.redoStack⟩, rows', some (x, y, m, !h.ongoing.isEmpty))

def History.undo (h : History) (rows : List Row) :
    Option (History × List Row × Option (Nat × Nat × Nat × Bool)) :=
  h.undoGo rows h.undoList

/-- Modelled from the spec: redo reapplies the most recently undone
transaction forward and moves it back onto the undo side. -/
def History.redoGo (h : History) (rows : List Row) :
    List (List EditDiff) → Option (History × List Row × Option (Nat × Nat × Nat × Bool))
  | [] => some (h, rows, none)
  | t :: rest =>
    match txnRedo t rows with
    | none => none
    | some (rows', x, y, m) =>
      some (⟨t :: h.committed, h.ongoing, rest⟩, rows', some (x, y, m, false))

def History.redo (h : History) (rows : List Row) :
    Option (History × List Row × Option (Nat × Nat × Nat × Bool)) :=
  h.redoGo rows h.redoStack

/-- `CursorDir` of `text_buffer.rs`. -/
inductive CursorDir where
  | Left
  | Right
  | Up
  | Down
deriving DecidableEq, Repr

/-- `TextBuffer` of `text_buffer.rs`. The optional file binding is reduced
to whether a file is bound: paths and the file system live outside the
embedded core. -/
structure TextBuffer where
  cx : Nat
  cy : Nat
  hasFile : Bool
  row : List Row
  undo_count : Int
  modified : Bool
  history : History
  inserted_undo : Bool
  dirty_start : Option Nat
deriving DecidableEq, Repr

/-- `i32::saturating_add(1)` on the undo counter. -/
def satAdd1 (n : Int) : Int := if n = 2147483647 then n else n + 1

/-- `i32::saturating_sub(1)` on the undo counter. -/
def satSub1 (n : Int) : Int := if n = -2147483648 then n else n - 1

/-- `TextBuffer::empty`. -/
def TextBuffer.emptyBuf : TextBuffer :=
  ⟨0, 0, false, [Row.emptyRow], 0, false, History.dflt, false, some 0⟩

/-- `TextBuffer::open` on an existing file, parameterized by the file's
physical lines; `BufReader::lines` yields no line at all for an empty
file. -/
def TextBuffer.openLines (ls : List (List Char)) : Except Error TextBuffer := do
  let rows ← ls.mapM Row.new
  pure ⟨0, 0, true, rows, 0, false, History.dflt, false, some 0⟩

/-- `TextBuffer::open` on a missing path: an empty buffer bound to it. -/
def TextBuffer.openMissing : TextBuffer :=
  { TextBuffer.emptyBuf with hasFile := true }

/-- The dirty-floor update of `TextBuffer::set_dirty_start`: keep the
existing floor when it is already at or below the touched line. -/
def dirtyNext (cur : Option Nat) (line : Nat) : Option Nat :=
  match cur with
  | some l => if l ≤ line then some l else some line
  | none => some line

/-- `TextBuffer::set_dirty_start`. -/
def TextBuffer.set_dirty_start (b : TextBuffer) (line : Nat) : TextBuffer :=
  { b with dirty_start := dirtyNext b.dirty_start line }

/-- `TextBuffer::apply_diff`. -/
def TextBuffer.apply_diff (b : TextBuffer) (d : EditDiff) (w : UndoRedo) :
    Option TextBuffer := do
  let (rows', x, y) ← d.apply b.row w
  pure (TextBuffer.set_dirty_start { b with row := rows', cx := x, cy := y } y)

/-- `TextBuffer::new_diff`. -/
def TextBuffer.new_diff (b : TextBuffer) (d : EditDiff) : Option TextBuffer := do
  let b' ← b.apply_diff d .Redo
  pure { b' with modified := true, history := b'.history.push d }

/-- `TextBuffer::insert_undo_point` (the per-keystroke latch
`inserted_undo` makes it a no-op after the first call of a keystroke). -/
def TextBuffer.insert_undo_point (b : TextBuffer) : TextBuffer :=
  if b.inserted_undo then b
  else
    let fe := b.history.finish_ongoing_edit
    { b with
      history := fe.1,
      undo_count := if fe.2 then satAdd1 b.undo_count else b.undo_count,
      modified := false,
      inserted_undo := true }

/-- `TextBuffer::finish_edit`: clear the latch, hand the dirty floor to the
renderer and reset it. -/
def TextBuffer.finish_edit (b : TextBuffer) : TextBuffer × Option Nat :=
  ({ b with inserted_undo := false, dirty_start := none }, b.dirty_start)

/-- `TextBuffer::insert_char`: a `Newline` is first recorded at the
past-last-line sentinel; plain typing does not close the transaction. -/
def TextBuffer.insert_char (b : TextBuffer) (ch : Char) : Option TextBuffer := do
  let b ← if b.cy = b.row.length then b.new_diff .Newline else pure b
  b.new_diff (.InsertChar b.cx b.cy ch)

/-- `TextBuffer::concat_next_line`: a line join recorded as
`DeleteLine` of the successor followed by `Append` of its content. -/
def TextBuffer.concat_next_line (b : TextBuffer) : Option TextBuffer := do
  let nxt ← b.row.get? (b.cy + 1)
  let removed := nxt.buf
  let b ← b.new_diff (.DeleteLine (b.cy + 1) removed)
  b.new_diff (.Append b.cy removed)

/-- `TextBuffer::squash_to_previous_line`. -/
def TextBuffer.squash_to_previous_line (b : TextBuffer) : Option TextBuffer := do
  let cy1 ← usizeSub b.cy 1
  let r ← b.row.get? cy1
  TextBuffer.concat_next_line { b with cy := cy1, cx := r.len }

/-- `TextBuffer::delete_char`: no-op at the sentinel row and at the buffer
start; closes the active transaction first. -/
def TextBuffer.delete_char (b : TextBuffer) : Option TextBuffer :=
  if b.cy = b.row.length ∨ (b.cx = 0 ∧ b.cy = 0) then some b
  else
    let b := b.insert_undo_point
    if 0 < b.cx then do
      let r ← b.row.get? b.cy
      let deleted ← r.char_at_checked (b.cx - 1)
      b.new_diff (.DeleteChar b.cx b.cy deleted)
    else b.squash_to_previous_line

/-- `TextBuffer::insert_line`. -/
def TextBuffer.insert_line (b : TextBuffer) : Option TextBuffer :=
  let b := b.insert_undo_point
  if b.row.length ≤ b.cy then b.new_diff .Newline
  else do
    let r ← b.row.get? b.cy
    if r.len ≤ b.cx then b.new_diff (.InsertLine (b.cy + 1) [])
    else if b.cx ≤ byteLen r.buf then do
      let truncated ← r.sliceFrom b.cx
      let b ← b.new_diff (.Truncate b.cy truncated)
      b.new_diff (.InsertLine (b.cy + 1) truncated)
    else pure b

/-- `TextBuffer::move_cursor_one`: pure cursor motion followed by the
column clamp against the destination row. -/
def TextBuffer.move_cursor_one (b : TextBuffer) (dir : CursorDir) : Option TextBuffer := do
  let b ←
    match dir with
    | .Up => pure { b with cy := b.cy - 1 }
    | .Left =>
      if 0 < b.cx then pure { b with cx := b.cx - 1 }
      else if 0 < b.cy then do
        let r ← b.row.get? (b.cy - 1)
        pure { b with cy := b.cy - 1, cx := r.len }
      else pure b
    | .Down => pure (if b.cy < b.row.length then { b with cy := b.cy + 1 } else b)
    | .Right =>
      if b.cy < b.row.length then do
        let r ← b.row.get? b.cy
        if b.cx < r.len then pure { b with cx := b.cx + 1 }
        else pure { b with cy := b.cy + 1, cx := 0 }
      else pure b
  let len := (b.row.get? b.cy).elim 0 Row.len
  pure (if len < b.cx then { b with cx := len } else b)

/-- `TextBuffer::delete_right_char`: move right then delete left, except at
the true end of the buffer. -/
def TextBuffer.delete_right_char (b : TextBuffer) : Option TextBuffer :=
  if b.cy = b.row.length then some b
  else do
    let lm1 ← usizeSub b.row.length 1
    let atEnd ←
      if b.cy = lm1 then do
        let r ← b.row.get? b.cy
        pure (b.cx == r.len)
      else pure false
    if atEnd then some b
    else do
      let b ← b.move_cursor_one .Right
      b.delete_char

/-- `TextBuffer::save`, the file write abstracted into a `writeOk` flag
(whether `File::create` and the writes succeed); the returned flag is
whether the save reported success. An unbound buffer reports success
without writing; a failed write leaves the counters untouched. -/
def TextBuffer.save (b : TextBuffer) (writeOk : Bool) : TextBuffer × Bool :=
  let b := b.insert_undo_point
  if b.hasFile then
    if writeOk then ({ b with undo_count := 0, modified := false }, true)
    else (b, false)
  else (b, true)

/-- `TextBuffer::after_undoredo`. -/
def TextBuffer.after_undoredo (b : TextBuffer)
    (state : Option (Nat × Nat × Nat × Bool)) : TextBuffer × Bool :=
  match state with
  | some (x, y, s, _) => (TextBuffer.set_dirty_start { b with cx := x, cy := y } s, true)
  | none => (b, false)

/-- `TextBuffer::undo`. -/
def TextBuffer.undo (b : TextBuffer) : Option (TextBuffer × Bool) := do
  let (h', rows', state) ← b.history.undo b.row
  let b := { b with history := h', row := rows' }
  let b :=
    match state with
    | some (_, _, _, edited) =>
      { b with
        undo_count := if edited then b.undo_count else satSub1 b.undo_count,
        modified := false }
    | none => b
  pure (b.after_undoredo state)

/-- `TextBuffer::redo`. -/
def TextBuffer.redo (b : TextBuffer) : Option (TextBuffer × Bool) := do
  let (h', rows', state) ← b.history.redo b.row
  let b := { b with history := h', row := rows' }
  let b :=
    match state with
    | some (_, _, _, edited) =>
      { b with
        undo_count := if edited then b.undo_count else satAdd1 b.undo_count,
        modified := false }
    | none => b
  pure (b.after_undoredo state)

theorem runOpsGo_min (dir : UndoRedo) (ds : List EditDiff) :
    ∀ (rows : List Row) (x y m m0 : Nat),
    runOpsGo dir ds rows x y (min m m0) =
      (runOpsGo dir ds rows x y m0).map fun st =>
        (st.1, st.2.1, st.2.2.1, min m st.2.2.2) := by
  induction ds with
  | nil => intro rows x y m m0; rfl
  | cons e es ih =>
    intro rows x y m m0
    simp only [runOpsGo]
    cases e.apply rows dir with
    | none => rfl
    | some q =>
      obtain ⟨r', x', y'⟩ := q
      simp only []
      rw [Nat.min_assoc m m0 y']
      exact ih r' x' y' m (min m0 y')

theorem runOpsGo_eq_runOps (dir : UndoRedo) (ds : List EditDiff)
    (rows : List Row) (x y m : Nat) (hne : ds ≠ []) :
    runOpsGo dir ds rows x y m =
      (runOps dir ds rows).map fun st =>
        (st.1, st.2.1, st.2.2.1, min m st.2.2.2) := by
  cases ds with
  | nil => exact absurd rfl hne
  | cons e es =>
    simp only [runOpsGo, runOps]
    cases e.apply rows dir with
    | none => rfl
    | some q =>
      obtain ⟨r', x', y'⟩ := q
      simp only []
      exact runOpsGo_min dir es r' x' y' m y'

theorem runOpsGo_append (dir : UndoRedo) (ds : List EditDiff) (d : EditDiff) :
    ∀ (rows : List Row) (x y m : Nat),
    runOpsGo dir (ds ++ [d]) rows x y m =
      (runOpsGo dir ds rows x y m).bind fun st =>
        (d.apply st.1 dir).map fun q => (q.1, q.2.1, q.2.2, min st.2.2.2 q.2.2) := by
  induction ds with
  | nil =>
    intro rows x y m
    simp only [List.nil_append, runOpsGo, Option.some_bind]
    cases d.apply rows dir with
    | none => rfl
    | some q2 => obtain ⟨r2, x2, y2⟩ := q2; rfl
  | cons f fs ih =>
    intro rows x y m
    simp only [List.cons_append, runOpsGo]
    cases f.apply rows dir with
    | none => rfl
    | some q2 =>
      obtain ⟨r2, x2, y2⟩ := q2
      exact ih r2 x2 y2 (min m y2)

theorem runOps_append (dir : UndoRedo) (ds : List EditDiff) (d : EditDiff)
    (rows : List Row) (hne : ds ≠ []) :
    runOps dir (ds ++ [d]) rows =
      (runOps dir ds rows).bind fun st =>
        (d.apply st.1 dir).map fun q => (q.1, q.2.1, q.2.2, min st.2.2.2 q.2.2) := by
  cases ds with
  | nil => exact absurd rfl hne
  | cons e es =>
    simp only [List.cons_append, runOps]
    cases e.apply rows dir with
    | none => rfl
    | some q =>
      obtain ⟨r', x', y'⟩ := q
      simp only []
      exact runOpsGo_append dir es d r' x' y' y'

theorem runOps_singleton (dir : UndoRedo) (d : EditDiff) (rows : List Row) :
    runOps dir [d] rows =
      (d.apply rows dir).map fun q => (q.1, q.2.1, q.2.2, q.2.2) := by
  simp only [runOps, runOpsGo]
  cases d.apply rows dir with
  | none => rfl
  | some q => obtain ⟨r', x', y'⟩ := q; rfl

theorem runOps_cons (dir : UndoRedo) (d : EditDiff) (ds : List EditDiff)
    (rows : List Row) :
    runOps dir (d :: ds) rows =
      (d.apply rows dir).bind fun q =>
        runOpsGo dir ds q.1 q.2.1 q.2.2 q.2.2 := by
  simp only [runOps]
  cases d.apply rows dir with
  | none => rfl
  | some q => obtain ⟨r, x, y⟩ := q; rfl

/-- The invariant attached to each transaction sitting in a history stack:
between its two surrounding snapshots the transaction replays exactly, in
both directions, with valid cursors. -/
def ChainLink (t : List EditDiff) (prev cur : List Row) : Prop :=
  ∃ x y m x' y' m',
    txnUndo t cur = some (prev, x, y, m) ∧ cursorOk x y prev ∧
    txnRedo t prev = some (cur, x', y', m') ∧ cursorOk x' y' cur

theorem chainLink_single {d : EditDiff} {rows rows' : List Row} {x y x' y' : Nat}
    (hredo : d.apply rows .Redo = some (rows', x, y))
    (hundo : d.apply rows' .Undo = some (rows, x', y'))
    (hcr : cursorOk x y rows') (hcu : cursorOk x' y' rows) :
    ChainLink [d] rows rows' := by
  refine ⟨x', y', y', x, y, y, ?_, hcu, ?_, hcr⟩
  · unfold txnUndo
    rw [List.reverse_singleton, runOps_singleton, hundo]
    rfl
  · unfold txnRedo
    rw [runOps_singleton, hredo]
    rfl

theorem chainLink_snoc {t : List EditDiff} {prev cur cur' : List Row}
    {d : EditDiff} {x y x' y' : Nat}
    (hl : ChainLink t prev cur)
    (hredo : d.apply cur .Redo = some (cur', x, y))
    (hundo : d.apply cur' .Undo = some (cur, x', y'))
    (hcr : cursorOk x y cur') :
    ChainLink (t ++ [d]) prev cur' := by
  obtain ⟨xt, yt, mt, xr, yr, mr, hu, hcu, hr, hcc⟩ := hl
  have htne : t ≠ [] := by
    intro h0
    rw [h0] at hu
    unfold txnUndo at hu
    simp [runOps] at hu
  refine ⟨xt, yt, min y' mt, x, y, min mr y, ?_, hcu, ?_, hcr⟩
  · unfold txnUndo
    rw [List.reverse_append, List.reverse_singleton, List.singleton_append,
      runOps_cons, hundo]
    simp only [Option.some_bind]
    rw [runOpsGo_eq_runOps _ _ _ _ _ _ (by simpa using htne)]
    unfold txnUndo at hu
    rw [hu]
    rfl
  · unfold txnRedo
    rw [runOps_append _ _ _ _ htne]
    unfold txnRedo at hr
    rw [hr]
    simp only [Option.some_bind]
    rw [hredo]
    rfl

/-- The undo side of a history: each transaction, from the most recent
backward, links the current rows to ever older good snapshots. -/
inductive Chain : List Row → List (List EditDiff) → Prop
  | nil (rows : List Row) : Chain rows []
  | cons {rows prev : List Row} {t : List EditDiff} {ts : List (List EditDiff)} :
      ChainLink t prev rows → GoodRows prev → Chain prev ts → Chain rows (t :: ts)

/-- The redo side of a history: each undone transaction links the current
rows forward to ever newer good snapshots. -/
inductive RChain : List Row → List (List EditDiff) → Prop
  | nil (rows : List Row) : RChain rows []
  | cons {rows nxt : List Row} {t : List EditDiff} {ts : List (List EditDiff)} :
      ChainLink t rows nxt → GoodRows nxt → RChain nxt ts → RChain rows (t :: ts)

/-- The state invariant of every reachable `TextBuffer`: good rows, a valid
cursor, a history whose two stacks replay exactly against the current rows,
and a redo stack that is empty whenever a transaction is open. -/
structure Inv (b : TextBuffer) : Prop where
  good : GoodRows b.row
  cOk : cursorOk b.cx b.cy b.row
  chain : Chain b.row b.history.undoList
  rchain : RChain b.row b.history.redoStack
  sep : b.history.ongoing ≠ [] → b.history.redoStack = []

/-- The ongoing transaction, when present, undoes exactly to `rows0`; when
absent, the rows are `rows0` themselves. -/
def OngoingInverts (b : TextBuffer) (rows0 : List Row) : Prop :=
  (b.history.ongoing = [] ∧ b.row = rows0) ∨ ChainLink b.history.ongoing rows0 b.row

theorem new_diff_inv {b : TextBuffer} {d : EditDiff} (hI : Inv b) (hp : d.pre b.row) :
    ∃ b', b.new_diff d = some b' ∧ Inv b' ∧
      b'.history.committed = b.history.committed ∧
      b'.history.ongoing = b.history.ongoing ++ [d] ∧
      b'.history.redoStack = [] ∧
      b'.inserted_undo = b.inserted_undo ∧
      b'.hasFile = b.hasFile ∧
      b'.undo_count = b.undo_count ∧
      d.apply b.row .Redo = some (b'.row, b'.cx, b'.cy) ∧
      (∀ rows0, OngoingInverts b rows0 → OngoingInverts b' rows0) := by
  obtain ⟨rows', xr, yr, xu, yu, hredo, hg', hcr, hundo, hcu⟩ :=
    EditDiff.apply_roundtrip d b.row hI.good hp
  have hlink : ∀ prev, ((b.history.ongoing = [] ∧ b.row = prev) ∨
      ChainLink b.history.ongoing prev b.row) →
      ChainLink (b.history.ongoing ++ [d]) prev rows' := by
    intro prev hh
    rcases hh with ⟨hog, hrow⟩ | hl
    · rw [hog, List.nil_append]
      rw [← hrow]
      exact chainLink_single hredo hundo hcr hcu
    · exact chainLink_snoc hl hredo hundo hcr
  let b2 : TextBuffer :=
    { b with
      row := rows'
      cx := xr
      cy := yr
      dirty_start := dirtyNext b.dirty_start yr
      modified := true
      history := b.history.push d }
  refine ⟨b2, ?_, ?_, rfl, rfl, rfl, rfl, rfl, rfl, hredo, ?_⟩
  · unfold TextBuffer.new_diff TextBuffer.apply_diff
    rw [hredo]
    rfl
  · refine ⟨hg', hcr, ?_, RChain.nil _, fun _ => rfl⟩
    have hul : (b.history.push d).undoList =
        (b.history.ongoing ++ [d]) :: b.history.committed := by
      unfold History.push History.undoList
      simp
    have hb2h : b2.history = b.history.push d := rfl
    have hb2r : b2.row = rows' := rfl
    rw [hb2h, hb2r, hul]
    have hchain : Chain b.row
        (if b.history.ongoing = [] then b.history.committed
         else b.history.ongoing :: b.history.committed) := hI.chain
    by_cases hog : b.history.ongoing = []
    · rw [if_pos hog] at hchain
      exact Chain.cons (hlink b.row (Or.inl ⟨hog, rfl⟩)) hI.good hchain
    · rw [if_neg hog] at hchain
      cases hchain with
      | cons hl hgp hch =>
        exact Chain.cons (hlink _ (Or.inr hl)) hgp hch
  · intro rows0 hO
    exact Or.inr (hlink rows0 hO)

theorem insert_undo_point_props {b : TextBuffer} (hI : Inv b) :
    Inv b.insert_undo_point ∧
    (b.insert_undo_point).row = b.row ∧
    (b.insert_undo_point).cx = b.cx ∧
    (b.insert_undo_point).cy = b.cy ∧
    (b.insert_undo_point).hasFile = b.hasFile ∧
    (b.insert_undo_point).history.undoList = b.history.undoList ∧
    (b.insert_undo_point).inserted_undo = true ∧
    (b.inserted_undo = false →
      (b.insert_undo_point).history.ongoing = [] ∧
      (b.insert_undo_point).history.committed = b.history.undoList) := by
  unfold TextBuffer.insert_undo_point
  by_cases hl : b.inserted_undo = true
  · rw [if_pos hl]
    refine ⟨hI, rfl, rfl, rfl, rfl, rfl, hl, ?_⟩
    intro hf
    rw [hl] at hf
    exact Bool.noConfusion hf
  · rw [if_neg hl]
    unfold History.finish_ongoing_edit
    by_cases hog : b.history.ongoing = []
    · rw [if_pos hog]
      refine ⟨⟨hI.good, hI.cOk, hI.chain, hI.rchain, hI.sep⟩, rfl, rfl, rfl, rfl, rfl,
        rfl, ?_⟩
      intro _
      refine ⟨hog, ?_⟩
      unfold History.undoList
      rw [if_pos hog]
    · rw [if_neg hog]
      have hul : b.history.undoList = b.history.ongoing :: b.history.committed := by
        unfold History.undoList
        rw [if_neg hog]
      refine ⟨?_, rfl, rfl, rfl, rfl, ?_, rfl, ?_⟩
      · refine ⟨hI.good, hI.cOk, ?_, hI.rchain, ?_⟩
        · show Chain b.row (History.undoList ⟨b.history.ongoing :: b.history.committed,
            [], b.history.redoStack⟩)
          unfold History.undoList
          rw [if_pos rfl]
          rw [← hul]
          exact hI.chain
        · intro h0
          exact absurd rfl h0
      · show History.undoList ⟨b.history.ongoing :: b.history.committed,
            [], b.history.redoStack⟩ = b.history.undoList
        rw [hul]
        simp [History.undoList]
      · intro _
        refine ⟨rfl, ?_⟩
        rw [hul]

theorem undo_inv {b : TextBuffer} (hI : Inv b) :
    ∃ bb r, b.undo = some (bb, r) ∧ Inv bb ∧
      bb.hasFile = b.hasFile ∧ bb.inserted_undo = b.inserted_undo ∧
      (b.history.undoList = [] → bb = b ∧ r = false) ∧
      (∀ t ts, b.history.undoList = t :: ts →
        r = true ∧ bb.history.committed = ts ∧ bb.history.ongoing = [] ∧
        bb.history.redoStack = t :: b.history.redoStack ∧
        ∃ x y m, txnUndo t b.row = some (bb.row, x, y, m)) := by
  cases hul : b.history.undoList with
  | nil =>
    refine ⟨b, false, ?_, hI, rfl, rfl, fun _ => ⟨rfl, rfl⟩, ?_⟩
    · unfold TextBuffer.undo History.undo
      rw [hul]
      rfl
    · intro t ts h0
      exact List.noConfusion h0
  | cons t ts =>
    have hchain : Chain b.row (t :: ts) := hul ▸ hI.chain
    cases hchain with
    | cons hl hgp hch =>
    rename_i prev
    obtain ⟨xt, yt, mt, xr, yr, mr, hu, hcu, hr, hcc⟩ := hl
    refine ⟨{ b with
        cx := xt
        cy := yt
        row := prev
        undo_count := if !b.history.ongoing.isEmpty then b.undo_count
          else satSub1 b.undo_count
        modified := false
        history := ⟨ts, [], t :: b.history.redoStack⟩
        dirty_start := dirtyNext b.dirty_start mt }, true, ?_, ?_, rfl, rfl, ?_, ?_⟩
    · unfold TextBuffer.undo History.undo
      rw [hul]
      simp only [History.undoGo]
      rw [hu]
      rfl
    · refine ⟨hgp, hcu, ?_, ?_, ?_⟩
      · show Chain prev (History.undoList ⟨ts, [], t :: b.history.redoStack⟩)
        unfold History.undoList
        rw [if_pos rfl]
        exact hch
      · show RChain prev (t :: b.history.redoStack)
        exact RChain.cons ⟨xt, yt, mt, xr, yr, mr, hu, hcu, hr, hcc⟩ hI.good hI.rchain
      · intro h0
        exact absurd rfl h0
    · intro h0
      exact List.noConfusion h0
    · intro t' ts' h0
      obtain ⟨h1, h2⟩ := List.cons.injEq .. ▸ h0
      subst h1
      subst h2
      exact ⟨rfl, rfl, rfl, rfl, xt, yt, mt, hu⟩

theorem redo_inv {b : TextBuffer} (hI : Inv b) :
    ∃ bb r, b.redo = some (bb, r) ∧ Inv bb ∧
      bb.hasFile = b.hasFile ∧ bb.inserted_undo = b.inserted_undo ∧
      (b.history.redoStack = [] → bb = b ∧ r = false) := by
  cases hrs : b.history.redoStack with
  | nil =>
    refine ⟨b, false, ?_, hI, rfl, rfl, fun _ => ⟨rfl, rfl⟩⟩
    unfold TextBuffer.redo History.redo
    rw [hrs]
    rfl
  | cons t ts =>
    have hog : b.history.ongoing = [] := by
      by_contra hne
      rw [hI.sep hne] at hrs
      exact List.noConfusion hrs
    have hrchain : RChain b.row (t :: ts) := hrs ▸ hI.rchain
    cases hrchain with
    | cons hl hgn hch =>
    rename_i nxt
    obtain ⟨xt, yt, mt, xr, yr, mr, hu, hcu, hr, hcc⟩ := hl
    refine ⟨{ b with
        cx := xr
        cy := yr
        row := nxt
        undo_count := satAdd1 b.undo_count
        modified := false
        history := ⟨t :: b.history.committed, b.history.ongoing, ts⟩
        dirty_start := dirtyNext b.dirty_start mr }, true, ?_, ?_, rfl, rfl, ?_⟩
    · unfold TextBuffer.redo History.redo
      rw [hrs]
      simp only [History.redoGo]
      rw [hr]
      rfl
    · refine ⟨hgn, hcc, ?_, ?_, ?_⟩
      · show Chain nxt (History.undoList ⟨t :: b.history.committed, b.history.ongoing,
          ts⟩)
        unfold History.undoList
        rw [hog, if_pos rfl]
        have hchain : Chain b.row b.history.committed := by
          have h0 := hI.chain
          unfold History.undoList at h0
          rw [if_pos hog] at h0
          exact h0
        exact Chain.cons ⟨xt, yt, mt, xr, yr, mr, hu, hcu, hr, hcc⟩ hI.good hchain
      · show RChain nxt ts
        exact hch
      · intro h0
        exact absurd hog h0
    · intro h0
      exact List.noConfusion h0

theorem get?_of_lt {α : Type} {l : List α} {i : Nat} (h : i < l.length) :
    ∃ a, l.get? i = some a := by
  cases hg : l.get? i with
  | none => exact absurd (List.get?_eq_none.mp hg) (by omega)
  | some a => exact ⟨a, rfl⟩

theorem clamp_step (bmid : TextBuffer) (hg : GoodRows bmid.row)
    (hcy : bmid.cy ≤ bmid.row.length) :
    ∃ b', (pure (if (bmid.row.get? bmid.cy).elim 0 Row.len < bmid.cx
          then { bmid with cx := (bmid.row.get? bmid.cy).elim 0 Row.len }
          else bmid) : Option TextBuffer) = some b' ∧
      b'.cx = min bmid.cx ((bmid.row.get? bmid.cy).elim 0 Row.len) ∧
      b'.cy = bmid.cy ∧ b'.row = bmid.row ∧ b'.history = bmid.history ∧
      b'.undo_count = bmid.undo_count ∧ b'.modified = bmid.modified ∧
      b'.dirty_start = bmid.dirty_start ∧ b'.inserted_undo = bmid.inserted_undo ∧
      b'.hasFile = bmid.hasFile ∧ cursorOk b'.cx b'.cy bmid.row := by
  by_cases hlt : (bmid.row.get? bmid.cy).elim 0 Row.len < bmid.cx
  · rw [if_pos hlt]
    refine ⟨_, rfl, (Nat.min_eq_right (Nat.le_of_lt hlt)).symm, rfl, rfl, rfl, rfl, rfl,
      rfl, rfl, rfl, ?_, ?_, ?_⟩
    · exact hcy
    · intro r hr
      have hwf := hg.2 r (get?_mem hr)
      have hlen := Row.wf_len hwf
      show (bmid.row.get? bmid.cy).elim 0 Row.len ≤ r.buf.length
      rw [hr]
      simp only [Option.elim]
      omega
    · intro hsent
      have hsent' : bmid.cy = bmid.row.length := hsent
      show (bmid.row.get? bmid.cy).elim 0 Row.len = 0
      rw [List.get?_eq_none.mpr (by omega)]
      rfl
  · rw [if_neg hlt]
    refine ⟨_, rfl, (Nat.min_eq_left (by omega)).symm, rfl, rfl, rfl, rfl, rfl,
      rfl, rfl, rfl, ?_, ?_, ?_⟩
    · exact hcy
    · intro r hr
      have hwf := hg.2 r (get?_mem hr)
      have hlen := Row.wf_len hwf
      rw [hr] at hlt
      simp only [Option.elim] at hlt
      omega
    · intro hsent
      have hsent' : bmid.cy = bmid.row.length := hsent
      rw [List.get?_eq_none.mpr (by omega)] at hlt
      simp only [Option.elim] at hlt
      omega

theorem move_spec {b : TextBuffer} (hg : GoodRows b.row)
    (hcOk : cursorOk b.cx b.cy b.row) (dir : CursorDir) :
    ∃ b', b.move_cursor_one dir = some b' ∧ cursorOk b'.cx b'.cy b.row ∧
      b'.row = b.row ∧ b'.history = b.history ∧ b'.undo_count = b.undo_count ∧
      b'.modified = b.modified ∧ b'.dirty_start = b.dirty_start ∧
      b'.inserted_undo = b.inserted_undo ∧ b'.hasFile = b.hasFile ∧
      ((dir = .Left ∧ b.cx = 0 ∧ b.cy = 0) → b' = b) ∧
      ((dir = .Left ∧ 0 < b.cx) → b'.cx = b.cx - 1 ∧ b'.cy = b.cy) ∧
      ((dir = .Left ∧ b.cx = 0 ∧ 0 < b.cy) →
        b'.cy = b.cy - 1 ∧ ∀ r, b.row.get? (b.cy - 1) = some r → b'.cx = r.len) ∧
      ((dir = .Right ∧ b.cy = b.row.length) → b' = b) ∧
      ((dir = .Right ∧ b.cy < b.row.length) →
        ∀ r, b.row.get? b.cy = some r →
          (b.cx < r.len → b'.cx = b.cx + 1 ∧ b'.cy = b.cy) ∧
          (b.cx = r.len → b'.cx = 0 ∧ b'.cy = b.cy + 1)) ∧
      (dir = .Up → b'.cy = b.cy - 1 ∧
        b'.cx = min b.cx ((b.row.get? (b.cy - 1)).elim 0 Row.len)) ∧
      (dir = .Down →
        b'.cy = (if b.cy < b.row.length then b.cy + 1 else b.cy) ∧
        b'.cx = min b.cx
          ((b.row.get? (if b.cy < b.row.length then b.cy + 1 else b.cy)).elim 0 Row.len)) := by
  obtain ⟨hcyle, hcxle, hsent⟩ := hcOk
  have hnoL : CursorDir.Up = CursorDir.Left → False := fun h0 => CursorDir.noConfusion h0
  cases dir with
  | Up =>
    obtain ⟨b', heq, hcx', hcy', hrow', hh', hc', hm', hd', hiu', hf', hok⟩ :=
      clamp_step { b with cy := b.cy - 1 } hg (by show b.cy - 1 ≤ b.row.length; omega)
    refine ⟨b', ?_, hok, hrow', hh', hc', hm', hd', hiu', hf',
      ?_, ?_, ?_, ?_, ?_, ?_, ?_⟩
    · simp only [TextBuffer.move_cursor_one]
      exact heq
    all_goals intro h
    · exact absurd h.1 (fun h0 => CursorDir.noConfusion h0)
    · exact absurd h.1 (fun h0 => CursorDir.noConfusion h0)
    · exact absurd h.1 (fun h0 => CursorDir.noConfusion h0)
    · exact absurd h.1 (fun h0 => CursorDir.noConfusion h0)
    · exact absurd h.1 (fun h0 => CursorDir.noConfusion h0)
    · exact ⟨hcy', hcx'⟩
    · exact absurd h (fun h0 => CursorDir.noConfusion h0)
  | Down =>
    by_cases hlt : b.cy < b.row.length
    · obtain ⟨b', heq, hcx', hcy', hrow', hh', hc', hm', hd', hiu', hf', hok⟩ :=
        clamp_step { b with cy := b.cy + 1 } hg (by show b.cy + 1 ≤ b.row.length; omega)
      refine ⟨b', ?_, hok, hrow', hh', hc', hm', hd', hiu', hf',
        ?_, ?_, ?_, ?_, ?_, ?_, ?_⟩
      · simp only [TextBuffer.move_cursor_one]
        rw [if_pos hlt]
        exact heq
      all_goals intro h
      · exact absurd h.1 (fun h0 => CursorDir.noConfusion h0)
      · exact absurd h.1 (fun h0 => CursorDir.noConfusion h0)
      · exact absurd h.1 (fun h0 => CursorDir.noConfusion h0)
      · exact absurd h.1 (fun h0 => CursorDir.noConfusion h0)
      · exact absurd h.1 (fun h0 => CursorDir.noConfusion h0)
      · exact absurd h (fun h0 => CursorDir.noConfusion h0)
      · rw [if_pos hlt]
        exact ⟨hcy', hcx'⟩
    · obtain ⟨b', heq, hcx', hcy', hrow', hh', hc', hm', hd', hiu', hf', hok⟩ :=
        clamp_step b hg hcyle
      refine ⟨b', ?_, hok, hrow', hh', hc', hm', hd', hiu', hf',
        ?_, ?_, ?_, ?_, ?_, ?_, ?_⟩
      · simp only [TextBuffer.move_cursor_one]
        rw [if_neg hlt]
        exact heq
      all_goals intro h
      · exact absurd h.1 (fun h0 => CursorDir.noConfusion h0)
      · exact absurd h.1 (fun h0 => CursorDir.noConfusion h0)
      · exact absurd h.1 (fun h0 => CursorDir.noConfusion h0)
      · exact absurd h.1 (fun h0 => CursorDir.noConfusion h0)
      · exact absurd h.1 (fun h0 => CursorDir.noConfusion h0)
      · exact absurd h (fun h0 => CursorDir.noConfusion h0)
      · rw [if_neg hlt]
        exact ⟨hcy', hcx'⟩
  | Left =>
    by_cases hcx : 0 < b.cx
    · obtain ⟨b', heq, hcx', hcy', hrow', hh', hc', hm', hd', hiu', hf', hok⟩ :=
        clamp_step { b with cx := b.cx - 1 } hg hcyle
      refine ⟨b', ?_, hok, hrow', hh', hc', hm', hd', hiu', hf',
        ?_, ?_, ?_, ?_, ?_, ?_, ?_⟩
      · simp only [TextBuffer.move_cursor_one]
        rw [if_pos hcx]
        exact heq
      all_goals intro h
      · exact absurd h.2.1 (by omega)
      · constructor
        · rw [hcx']
          have hle : b.cx - 1 ≤ ((b.row.get? b.cy).elim 0 Row.len) := by
            rcases Nat.lt_or_ge b.cy b.row.length with hy | hy
            · obtain ⟨r, hr⟩ := get?_of_lt hy
              have hwf := hg.2 r (get?_mem hr)
              have hlen := Row.wf_len hwf
              have := hcxle r hr
              rw [hr]
              simp only [Option.elim]
              omega
            · have h0 : b.cy = b.row.length := by omega
              have := hsent h0
              rw [List.get?_eq_none.mpr (by omega)]
              simp only [Option.elim]
              omega
          show min (b.cx - 1) ((b.row.get? b.cy).elim 0 Row.len) = b.cx - 1
          omega
        · exact hcy'
      · exact absurd h.2.1 (by omega)
      · exact absurd h.1 (fun h0 => CursorDir.noConfusion h0)
      · exact absurd h.1 (fun h0 => CursorDir.noConfusion h0)
      · exact absurd h (fun h0 => CursorDir.noConfusion h0)
      · exact absurd h (fun h0 => CursorDir.noConfusion h0)
    · by_cases hcy : 0 < b.cy
      · obtain ⟨r0, hr0⟩ := get?_of_lt (show b.cy - 1 < b.row.length by omega)
        have hwf0 := hg.2 r0 (get?_mem hr0)
        have hlen0 := Row.wf_len hwf0
        obtain ⟨b', heq, hcx', hcy', hrow', hh', hc', hm', hd', hiu', hf', hok⟩ :=
          clamp_step { b with cy := b.cy - 1, cx := r0.len } hg
            (by show b.cy - 1 ≤ b.row.length; omega)
        refine ⟨b', ?_, hok, hrow', hh', hc', hm', hd', hiu', hf',
          ?_, ?_, ?_, ?_, ?_, ?_, ?_⟩
        · simp only [TextBuffer.move_cursor_one]
          rw [if_neg hcx, if_pos hcy, hr0]
          exact heq
        all_goals intro h
        · exact absurd h.2.2 (by omega)
        · exact absurd h.2 hcx
        · refine ⟨hcy', ?_⟩
          intro r hr
          rw [hr0] at hr
          cases hr
          rw [hcx']
          have hmid : ({ b with cy := b.cy - 1, cx := r0.len } : TextBuffer).row.get?
              ({ b with cy := b.cy - 1, cx := r0.len } : TextBuffer).cy =
              b.row.get? (b.cy - 1) := rfl
          rw [hmid, hr0]
          simp only [Option.elim]
          omega
        · exact absurd h.1 (fun h0 => CursorDir.noConfusion h0)
        · exact absurd h.1 (fun h0 => CursorDir.noConfusion h0)
        · exact absurd h (fun h0 => CursorDir.noConfusion h0)
        · exact absurd h (fun h0 => CursorDir.noConfusion h0)
      · obtain ⟨b', heq, hcx', hcy', hrow', hh', hc', hm', hd', hiu', hf', hok⟩ :=
          clamp_step b hg hcyle
        have hbeq : b' = b := by
          have hcx0 : b.cx = 0 := by omega
          have hxeq : b'.cx = b.cx := by rw [hcx']; omega
          cases hb : b'
          cases b
          simp_all
        refine ⟨b', ?_, hok, hrow', hh', hc', hm', hd', hiu', hf',
          ?_, ?_, ?_, ?_, ?_, ?_, ?_⟩
        · simp only [TextBuffer.move_cursor_one]
          rw [if_neg hcx, if_neg hcy]
          exact heq
        all_goals intro h
        · exact hbeq
        · exact absurd h.2 hcx
        · exact absurd h.2.2 hcy
        · exact absurd h.1 (fun h0 => CursorDir.noConfusion h0)
        · exact absurd h.1 (fun h0 => CursorDir.noConfusion h0)
        · exact absurd h (fun h0 => CursorDir.noConfusion h0)
        · exact absurd h (fun h0 => CursorDir.noConfusion h0)
  | Right =>
    by_cases hylt : b.cy < b.row.length
    · obtain ⟨r0, hr0⟩ := get?_of_lt hylt
      have hwf0 := hg.2 r0 (get?_mem hr0)
      have hlen0 := Row.wf_len hwf0
      have hxle := hcxle r0 hr0
      by_cases hxlt : b.cx < r0.len
      · obtain ⟨b', heq, hcx', hcy', hrow', hh', hc', hm', hd', hiu', hf', hok⟩ :=
          clamp_step { b with cx := b.cx + 1 } hg hcyle
        refine ⟨b', ?_, hok, hrow', hh', hc', hm', hd', hiu', hf',
          ?_, ?_, ?_, ?_, ?_, ?_, ?_⟩
        · simp only [TextBuffer.move_cursor_one]
          rw [if_pos hylt, hr0]
          rw [show ∀ (f : Row → Option TextBuffer), (some r0 >>= f) = f r0 from
            fun _ => rfl]
          rw [if_pos hxlt]
          exact heq
        all_goals intro h
        · exact absurd h.1 (fun h0 => CursorDir.noConfusion h0)
        · exact absurd h.1 (fun h0 => CursorDir.noConfusion h0)
        · exact absurd h.1 (fun h0 => CursorDir.noConfusion h0)
        · exact absurd h.2 (by omega)
        · intro r hr
          rw [hr0] at hr
          cases hr
          constructor
          · intro _
            refine ⟨?_, hcy'⟩
            rw [hcx']
            have hmid : ({ b with cx := b.cx + 1 } : TextBuffer).row.get?
                ({ b with cx := b.cx + 1 } : TextBuffer).cy = b.row.get? b.cy := rfl
            rw [hmid, hr0]
            simp only [Option.elim]
            omega
          · intro hx0
            exact absurd hxlt (by omega)
        · exact absurd h (fun h0 => CursorDir.noConfusion h0)
        · exact absurd h (fun h0 => CursorDir.noConfusion h0)
      · obtain ⟨b', heq, hcx', hcy', hrow', hh', hc', hm', hd', hiu', hf', hok⟩ :=
          clamp_step { b with cy := b.cy + 1, cx := 0 } hg
            (by show b.cy + 1 ≤ b.row.length; omega)
        refine ⟨b', ?_, hok, hrow', hh', hc', hm', hd', hiu', hf',
          ?_, ?_, ?_, ?_, ?_, ?_, ?_⟩
        · simp only [TextBuffer.move_cursor_one]
          rw [if_pos hylt, hr0]
          rw [show ∀ (f : Row → Option TextBuffer), (some r0 >>= f) = f r0 from
            fun _ => rfl]
          rw [if_neg hxlt]
          exact heq
        all_goals intro h
        · exact absurd h.1 (fun h0 => CursorDir.noConfusion h0)
        · exact absurd h.1 (fun h0 => CursorDir.noConfusion h0)
        · exact absurd h.1 (fun h0 => CursorDir.noConfusion h0)
        · exact absurd h.2 (by omega)
        · intro r hr
          rw [hr0] at hr
          cases hr
          constructor
          · intro hlt2
            exact absurd hlt2 hxlt
          · intro _
            refine ⟨?_, hcy'⟩
            rw [hcx']
            show min 0 ((b.row.get? (b.cy + 1)).elim 0 Row.len) = 0
            omega
        · exact absurd h (fun h0 => CursorDir.noConfusion h0)
        · exact absurd h (fun h0 => CursorDir.noConfusion h0)
    · obtain ⟨b', heq, hcx', hcy', hrow', hh', hc', hm', hd', hiu', hf', hok⟩ :=
        clamp_step b hg hcyle
      have hcyeq : b.cy = b.row.length := by omega
      have hbeq : b' = b := by
        have hcx0 : b.cx = 0 := hsent hcyeq
        have hxeq : b'.cx = b.cx := by rw [hcx']; omega
        cases hb : b'
        cases b
        simp_all
      refine ⟨b', ?_, hok, hrow', hh', hc', hm', hd', hiu', hf',
        ?_, ?_, ?_, ?_, ?_, ?_, ?_⟩
      · simp only [TextBuffer.move_cursor_one]
        rw [if_neg hylt]
        exact heq
      all_goals intro h
      · exact absurd h.1 (fun h0 => CursorDir.noConfusion h0)
      · exact absurd h.1 (fun h0 => CursorDir.noConfusion h0)
      · exact absurd h.1 (fun h0 => CursorDir.noConfusion h0)
      · exact hbeq
      · exact absurd h.2 (by omega)
      · exact absurd h (fun h0 => CursorDir.noConfusion h0)
      · exact absurd h (fun h0 => CursorDir.noConfusion h0)

/-- Recording an `InsertChar` of a character with no display width dies
inside `Row::insert_char` (the source unwraps the render failure), whatever
the surrounding state. -/
theorem TextBuffer.new_diff_insertChar_none (b : TextBuffer) (x y : Nat) {ch : Char}
    (hc : ¬ validChar ch) : b.new_diff (.InsertChar x y ch) = none := by
  cases hr : b.row.get? y with
  | none =>
    have hr' : b.row[y]? = none := by rw [← List.get?_eq_getElem?]; exact hr
    simp [TextBuffer.new_diff, TextBuffer.apply_diff, EditDiff.apply, hr']
  | some r =>
    have hr' : b.row[y]? = some r := by rw [← List.get?_eq_getElem?]; exact hr
    simp [TextBuffer.new_diff, TextBuffer.apply_diff, EditDiff.apply, hr',
      Row.insert_char_invalid r x hc]

/-- Typing a character with no display width never yields a successor
state. -/
theorem TextBuffer.insert_char_invalid_none (b : TextBuffer) {ch : Char}
    (hc : ¬ validChar ch) : b.insert_char ch = none := by
  unfold TextBuffer.insert_char
  by_cases hsent : b.cy = b.row.length
  · rw [if_pos hsent]
    cases hstep : b.new_diff .Newline with
    | none => rfl
    | some b1 =>
      show b1.new_diff (.InsertChar b1.cx b1.cy ch) = none
      exact TextBuffer.new_diff_insertChar_none b1 _ _ hc
  · rw [if_neg hsent]
    show b.new_diff (.InsertChar b.cx b.cy ch) = none
    exact TextBuffer.new_diff_insertChar_none b _ _ hc

/-- Typing one valid character: a `Newline` is recorded first only at the
sentinel row; the keystroke extends the ongoing transaction and never
seals it. -/
theorem insert_char_props {b : TextBuffer} {ch : Char} (hI : Inv b)
    (hc : validChar ch) :
    ∃ b', b.insert_char ch = some b' ∧ Inv b' ∧
      b'.history.committed = b.history.committed ∧
      b'.history.ongoing ≠ [] ∧
      b'.inserted_undo = b.inserted_undo ∧
      b'.hasFile = b.hasFile ∧
      ∀ rows0, OngoingInverts b rows0 → OngoingInverts b' rows0 := by
  by_cases hsent : b.cy = b.row.length
  · obtain ⟨b1, heq1, hI1, hcm1, hog1, hrs1, hiu1, hf1, huc1, happ1, hOI1⟩ :=
      new_diff_inv hI (show (EditDiff.Newline).pre b.row from trivial)
    have happ1' : (EditDiff.Newline).apply b.row .Redo =
        some (b.row ++ [Row.emptyRow], 0, (b.row ++ [Row.emptyRow]).length - 1) := rfl
    rw [happ1'] at happ1
    have h3 := Option.some.inj happ1
    have hrow1 : b1.row = b.row ++ [Row.emptyRow] := (congrArg Prod.fst h3).symm
    have h4 := congrArg Prod.snd h3
    have hcx1 : b1.cx = 0 := (congrArg Prod.fst h4).symm
    have hcy1 : b1.cy = (b.row ++ [Row.emptyRow]).length - 1 :=
      (congrArg Prod.snd h4).symm
    have hcy1' : b1.cy = b.row.length := by
      rw [hcy1, List.length_append]
      simp
    have hget1 : b1.row.get? b1.cy = some Row.emptyRow := by
      rw [hrow1, hcy1']
      exact List.get?_concat_length b.row Row.emptyRow
    have hpre2 : (EditDiff.InsertChar b1.cx b1.cy ch).pre b1.row :=
      ⟨Row.emptyRow, hget1, by rw [hcx1]; exact Nat.zero_le _, hc⟩
    obtain ⟨b2, heq2, hI2, hcm2, hog2, hrs2, hiu2, hf2, huc2, happ2, hOI2⟩ :=
      new_diff_inv hI1 hpre2
    refine ⟨b2, ?_, hI2, hcm2.trans hcm1, ?_, hiu2.trans hiu1, hf2.trans hf1,
      fun rows0 h0 => hOI2 rows0 (hOI1 rows0 h0)⟩
    · unfold TextBuffer.insert_char
      rw [if_pos hsent, heq1]
      exact heq2
    · rw [hog2]
      simp
  · have hylt : b.cy < b.row.length := by
      have := hI.cOk.1
      omega
    obtain ⟨r, hget⟩ := get?_of_lt hylt
    have hpre : (EditDiff.InsertChar b.cx b.cy ch).pre b.row :=
      ⟨r, hget, hI.cOk.2.1 r hget, hc⟩
    obtain ⟨b', heq, hI', hcm, hog, hrs, hiu, hf, huc, happ, hOI⟩ := new_diff_inv hI hpre
    refine ⟨b', ?_, hI', hcm, ?_, hiu, hf, hOI⟩
    · unfold TextBuffer.insert_char
      rw [if_neg hsent]
      exact heq
    · rw [hog]
      simp

/-- Moving the cursor to any position valid for the same rows keeps the
invariant. -/
theorem Inv_set_cursor {b : TextBuffer} (hI : Inv b) {x y : Nat}
    (hc : cursorOk x y b.row) : Inv { b with cx := x, cy := y } :=
  ⟨hI.good, hc, hI.chain, hI.rchain, hI.sep⟩

/-- One cursor move preserves the invariant and everything but the
cursor. -/
theorem move_inv {b : TextBuffer} (hI : Inv b) (dir : CursorDir) :
    ∃ b', b.move_cursor_one dir = some b' ∧ Inv b' ∧ b'.row = b.row ∧
      b'.history = b.history ∧ b'.inserted_undo = b.inserted_undo ∧
      b'.hasFile = b.hasFile ∧
      ∀ rows0, OngoingInverts b rows0 → OngoingInverts b' rows0 := by
  obtain ⟨b', heq, hok, hrow, hh, huc, hm, hd, hiu, hf, _, _, _, _, _, _, _⟩ :=
    move_spec hI.good hI.cOk dir
  refine ⟨b', heq, ⟨?_, ?_, ?_, ?_, ?_⟩, hrow, hh, hiu, hf, ?_⟩
  · rw [hrow]; exact hI.good
  · rw [hrow]; exact hok
  · rw [hrow, hh]; exact hI.chain
  · rw [hrow, hh]; exact hI.rchain
  · rw [hh]; exact hI.sep
  · intro rows0 h0
    unfold OngoingInverts at h0 ⊢
    rw [hh, hrow]
    exact h0

/-- A run of cursor moves, as the user would reposition between edits. -/
def moveRun (b : TextBuffer) : List CursorDir → Option TextBuffer
  | [] => some b
  | d :: ds => do
    let b' ← b.move_cursor_one d
    moveRun b' ds

/-- A run of keystrokes: consecutive plain character insertions. -/
def typeRun (b : TextBuffer) : List Char → Option TextBuffer
  | [] => some b
  | c :: cs => do
    let b' ← b.insert_char c
    typeRun b' cs

/-- Cursor moves touch nothing but the cursor: rows, history, latch and
binding survive any run of them. -/
theorem moveRun_props {ms : List CursorDir} {b : TextBuffer} (hI : Inv b) :
    ∃ b', moveRun b ms = some b' ∧ Inv b' ∧
      b'.row = b.row ∧ b'.history = b.history ∧
      b'.inserted_undo = b.inserted_undo ∧ b'.hasFile = b.hasFile ∧
      ∀ rows0, OngoingInverts b rows0 → OngoingInverts b' rows0 := by
  induction ms generalizing b with
  | nil => exact ⟨b, rfl, hI, rfl, rfl, rfl, rfl, fun _ h => h⟩
  | cons d ds ih =>
    obtain ⟨b1, heq1, hI1, hrow1, hh1, hiu1, hf1, hOI1⟩ := move_inv hI d
    obtain ⟨b', heq', hI', hrow', hh', hiu', hf', hOI'⟩ := ih hI1
    refine ⟨b', ?_, hI', hrow'.trans hrow1, hh'.trans hh1, hiu'.trans hiu1,
      hf'.trans hf1, fun rows0 h0 => hOI' rows0 (hOI1 rows0 h0)⟩
    unfold moveRun
    rw [heq1]
    exact heq'

/-- A typing run accumulates in the ongoing transaction: nothing is sealed,
and the transaction still undoes to where it undid before. -/
theorem typeRun_props {cs : List Char} {b : TextBuffer} (hI : Inv b)
    (hv : ∀ c ∈ cs, validChar c) :
    ∃ b', typeRun b cs = some b' ∧ Inv b' ∧
      b'.history.committed = b.history.committed ∧
      b'.inserted_undo = b.inserted_undo ∧
      b'.hasFile = b.hasFile ∧
      ((b.history.ongoing ≠ [] ∨ cs ≠ []) → b'.history.ongoing ≠ []) ∧
      ∀ rows0, OngoingInverts b rows0 → OngoingInverts b' rows0 := by
  induction cs generalizing b with
  | nil =>
    refine ⟨b, rfl, hI, rfl, rfl, rfl, ?_, fun _ h => h⟩
    intro h
    rcases h with h | h
    · exact h
    · exact absurd rfl h
  | cons c cs ih =>
    obtain ⟨b1, heq1, hI1, hcm1, hogne1, hiu1, hf1, hOI1⟩ :=
      insert_char_props hI (hv c (List.mem_cons_self ..))
    obtain ⟨b', heq', hI', hcm', hiu', hf', hogne', hOI'⟩ :=
      ih hI1 (fun x hx => hv x (List.mem_cons_of_mem _ hx))
    refine ⟨b', ?_, hI', hcm'.trans hcm1, hiu'.trans hiu1, hf'.trans hf1,
      fun _ => hogne' (Or.inl hogne1), fun rows0 h0 => hOI' rows0 (hOI1 rows0 h0)⟩
    unfold typeRun
    rw [heq1]
    exact heq'

/-- Evaluation of a forward `DeleteLine` at an interior line: the line is
removed and the cursor lands at the end of the previous line. -/
theorem deleteLine_redo_eval {rows : List Row} {y : Nat} (s : List Char) {r0 : Row}
    (hy1 : 1 ≤ y) (hy : y < rows.length)
    (hg0 : (rows.take y ++ rows.drop (y + 1)).get? (y - 1) = some r0) :
    (EditDiff.DeleteLine y s).apply rows .Redo =
      some (rows.take y ++ rows.drop (y + 1), r0.len, y - 1) := by
  simp only [EditDiff.apply, Option.bind_eq_bind,
    usizeSub_of_le (show 1 ≤ rows.length by omega), Option.some_bind,
    usizeSub_of_le hy1]
  by_cases hylast : y = rows.length - 1
  · have hdroplen : rows.drop (y + 1) = [] := by
      rw [List.drop_eq_nil_iff_le]
      omega
    have hdl : rows.dropLast = rows.take y ++ rows.drop (y + 1) := by
      rw [List.dropLast_eq_take, hdroplen, List.append_nil, hylast]
    rw [if_pos hylast, hdl, hg0]
    rfl
  · rw [if_neg hylast, if_pos hy, hg0]
    rfl

/-- `TextBuffer::concat_next_line` under the invariant: the join is
recorded as two operations on the ongoing transaction and succeeds. -/
theorem concat_props {b : TextBuffer} (hI : Inv b) (hlt : b.cy + 1 < b.row.length) :
    ∃ b', b.concat_next_line = some b' ∧ Inv b' ∧
      b'.hasFile = b.hasFile ∧ b'.inserted_undo = b.inserted_undo ∧
      b'.history.committed = b.history.committed ∧
      b'.history.ongoing ≠ [] ∧
      ∀ rows0, OngoingInverts b rows0 → OngoingInverts b' rows0 := by
  obtain ⟨rc, hgetc⟩ := get?_of_lt hlt
  obtain ⟨r0, hget0⟩ := get?_of_lt (show b.cy < b.row.length by omega)
  have hpre1 : (EditDiff.DeleteLine (b.cy + 1) rc.buf).pre b.row :=
    ⟨rc, hgetc, by omega, rfl⟩
  obtain ⟨b3, heq3, hI3, hcm3, hog3, hrs3, hiu3, hf3, huc3, happ3, hOI3⟩ :=
    new_diff_inv hI hpre1
  have hg0T : (b.row.take (b.cy + 1) ++ b.row.drop (b.cy + 1 + 1)).get?
      (b.cy + 1 - 1) = some r0 := by
    have h1 : b.cy + 1 - 1 = b.cy := by omega
    rw [h1, List.get?_append (by rw [List.length_take]; omega),
      List.get?_take (by omega)]
    exact hget0
  have heval := deleteLine_redo_eval (y := b.cy + 1) rc.buf (by omega) hlt hg0T
  have hsame := Option.some.inj (happ3.symm.trans heval)
  have hrow3 : b3.row = b.row.take (b.cy + 1) ++ b.row.drop (b.cy + 1 + 1) :=
    congrArg Prod.fst hsame
  have h4 := congrArg Prod.snd hsame
  have hcy3 : b3.cy = b.cy + 1 - 1 := congrArg Prod.snd h4
  have hpre2 : (EditDiff.Append b3.cy rc.buf).pre b3.row := by
    constructor
    · refine ⟨r0, ?_⟩
      rw [hcy3, hrow3]
      exact hg0T
    · intro c hc
      exact Row.wf_valid (hI.good.2 rc (get?_mem hgetc)) c hc
  obtain ⟨b4, heq4, hI4, hcm4, hog4, hrs4, hiu4, hf4, huc4, happ4, hOI4⟩ :=
    new_diff_inv hI3 hpre2
  refine ⟨b4, ?_, hI4, hf4.trans hf3, hiu4.trans hiu3, hcm4.trans hcm3, ?_,
    fun rows0 h0 => hOI4 rows0 (hOI3 rows0 h0)⟩
  · unfold TextBuffer.concat_next_line
    rw [hgetc]
    show ((b.new_diff (.DeleteLine (b.cy + 1) rc.buf)).bind fun bb =>
      bb.new_diff (.Append bb.cy rc.buf)) = some b4
    rw [heq3]
    rw [show ∀ (f : TextBuffer → Option TextBuffer), Option.bind (some b3) f = f b3
      from fun _ => rfl]
    exact heq4
  · rw [hog4]
    simp

/-- `TextBuffer::squash_to_previous_line` under the invariant, away from
the first line and the sentinel: the join succeeds and extends the ongoing
transaction. -/
theorem squash_props {b : TextBuffer} (hI : Inv b) (hcy1 : 1 ≤ b.cy)
    (hcylt : b.cy < b.row.length) :
    ∃ b', b.squash_to_previous_line = some b' ∧ Inv b' ∧
      b'.hasFile = b.hasFile ∧ b'.inserted_undo = b.inserted_undo ∧
      b'.history.committed = b.history.committed ∧
      b'.history.ongoing ≠ [] ∧
      ∀ rows0, OngoingInverts b rows0 → OngoingInverts b' rows0 := by
  have h1 : usizeSub b.cy 1 = some (b.cy - 1) := usizeSub_of_le hcy1
  obtain ⟨rp, hrp⟩ := get?_of_lt (show b.cy - 1 < b.row.length by omega)
  have hpwf : rp.wf := hI.good.2 rp (get?_mem hrp)
  have hcmid : cursorOk rp.len (b.cy - 1) b.row := by
    refine ⟨by omega, ?_, ?_⟩
    · intro r hr
      rw [hrp] at hr
      cases hr
      rw [Row.wf_len hpwf]
    · intro h0
      omega
  have hImid : Inv { b with cx := rp.len, cy := b.cy - 1 } := Inv_set_cursor hI hcmid
  have hmidlt : ({ b with cx := rp.len, cy := b.cy - 1 } : TextBuffer).cy + 1 <
      ({ b with cx := rp.len, cy := b.cy - 1 } : TextBuffer).row.length := by
    show b.cy - 1 + 1 < b.row.length
    omega
  obtain ⟨b', heqc, hI', hf', hiu', hcm', hogne', hOI'⟩ := concat_props hImid hmidlt
  refine ⟨b', ?_, hI', hf', hiu', hcm', hogne', ?_⟩
  · unfold TextBuffer.squash_to_previous_line
    rw [h1]
    rw [show ∀ (f : Nat → Option TextBuffer), (some (b.cy - 1) >>= f) = f (b.cy - 1)
      from fun _ => rfl]
    rw [hrp]
    rw [show ∀ (f : Row → Option TextBuffer), (some rp >>= f) = f rp from
      fun _ => rfl]
    exact heqc
  · intro rows0 h0
    refine hOI' rows0 ?_
    unfold OngoingInverts at h0 ⊢
    exact h0

/-- `TextBuffer::delete_char` under the invariant: it always returns, and
away from its two no-op positions it first drops the per-keystroke latch
(sealing the previous transaction when the latch was clear) and then
records the deletion on the now-ongoing transaction. -/
theorem delete_char_props {b : TextBuffer} (hI : Inv b) :
    ∃ b', b.delete_char = some b' ∧ Inv b' ∧ b'.hasFile = b.hasFile ∧
      (¬ (b.cy = b.row.length ∨ (b.cx = 0 ∧ b.cy = 0)) →
        b'.history.ongoing ≠ [] ∧
        (b.inserted_undo = false →
          b'.history.committed = b.history.undoList ∧ OngoingInverts b' b.row)) := by
  by_cases hstop : b.cy = b.row.length ∨ (b.cx = 0 ∧ b.cy = 0)
  · refine ⟨b, ?_, hI, rfl, fun h => absurd hstop h⟩
    unfold TextBuffer.delete_char
    rw [if_pos hstop]
  · push_neg at hstop
    obtain ⟨hsent, hstart⟩ := hstop
    have hcylt : b.cy < b.row.length := by
      have := hI.cOk.1
      omega
    obtain ⟨hI2, hrow2, hcx2, hcy2, hf2, hul2, hiu2, hseal2⟩ :=
      insert_undo_point_props hI
    have hO2 : b.inserted_undo = false → OngoingInverts b.insert_undo_point b.row :=
      fun hiu => Or.inl ⟨(hseal2 hiu).1, hrow2⟩
    by_cases hx : 0 < b.cx
    · obtain ⟨r, hget⟩ := get?_of_lt hcylt
      have hwf : r.wf := hI.good.2 r (get?_mem hget)
      have hxle : b.cx ≤ r.buf.length := hI.cOk.2.1 r hget
      obtain ⟨c, hc⟩ := get?_of_lt (show b.cx - 1 < r.buf.length by omega)
      have hchar : r.char_at_checked (b.cx - 1) = some c := by
        rw [Row.char_at_checked_wf hwf (by omega)]
        exact hc
      have hpre : (EditDiff.DeleteChar b.cx b.cy c).pre (b.insert_undo_point).row := by
        rw [hrow2]
        exact ⟨r, hget, by omega, hxle, hc⟩
      obtain ⟨b3, heq3, hI3, hcm3, hog3, hrs3, hiu3, hf3, huc3, happ3, hOI3⟩ :=
        new_diff_inv hI2 hpre
      refine ⟨b3, ?_, hI3, hf3.trans hf2, ?_⟩
      · unfold TextBuffer.delete_char
        rw [if_neg (by push_neg; exact ⟨hsent, hstart⟩)]
        show (if 0 < (b.insert_undo_point).cx then do
            let r ← (b.insert_undo_point).row.get? (b.insert_undo_point).cy
            let deleted ← r.char_at_checked ((b.insert_undo_point).cx - 1)
            (b.insert_undo_point).new_diff
              (.DeleteChar (b.insert_undo_point).cx (b.insert_undo_point).cy deleted)
          else (b.insert_undo_point).squash_to_previous_line) = some b3
        rw [if_pos (by rw [hcx2]; exact hx), hcx2, hcy2, hrow2, hget]
        rw [show ∀ (f : Row → Option TextBuffer), (some r >>= f) = f r from
          fun _ => rfl]
        rw [hchar]
        rw [show ∀ (f : Char → Option TextBuffer), (some c >>= f) = f c from
          fun _ => rfl]
        exact heq3
      · intro _
        refine ⟨by rw [hog3]; simp, ?_⟩
        intro hiu
        exact ⟨hcm3.trans (hseal2 hiu).2, hOI3 b.row (hO2 hiu)⟩
    · have hcy1 : 1 ≤ b.cy := by
        rcases Nat.eq_zero_or_pos b.cy with h0 | h0
        · exact absurd h0 (hstart (by omega))
        · omega
      have hsq := squash_props hI2 (by rw [hcy2]; exact hcy1)
        (by rw [hcy2, hrow2]; exact hcylt)
      obtain ⟨b', heqs, hI', hf', hiu', hcm', hogne', hOI'⟩ := hsq
      refine ⟨b', ?_, hI', hf'.trans hf2, ?_⟩
      · unfold TextBuffer.delete_char
        rw [if_neg (by push_neg; exact ⟨hsent, hstart⟩)]
        show (if 0 < (b.insert_undo_point).cx then do
            let r ← (b.insert_undo_point).row.get? (b.insert_undo_point).cy
            let deleted ← r.char_at_checked ((b.insert_undo_point).cx - 1)
            (b.insert_undo_point).new_diff
              (.DeleteChar (b.insert_undo_point).cx (b.insert_undo_point).cy deleted)
          else (b.insert_undo_point).squash_to_previous_line) = some b'
        rw [if_neg (by rw [hcx2]; exact hx)]
        exact heqs
      · intro _
        refine ⟨hogne', ?_⟩
        intro hiu
        refine ⟨hcm'.trans (hseal2 hiu).2, ?_⟩
        have h0 := hOI' b.row ?_
        · exact h0
        · exact hO2 hiu

/-- `TextBuffer::insert_line` under the invariant: the split always
succeeds, first dropping the latch (sealing the previous transaction when
the latch was clear), then recording the split on the ongoing
transaction. -/
theorem insert_line_props {b : TextBuffer} (hI : Inv b) :
    ∃ b', b.insert_line = some b' ∧ Inv b' ∧ b'.hasFile = b.hasFile ∧
      b'.history.ongoing ≠ [] ∧
      (b.inserted_undo = false →
        b'.history.committed = b.history.undoList ∧ OngoingInverts b' b.row) := by
  obtain ⟨hI2, hrow2, hcx2, hcy2, hf2, hul2, hiu2, hseal2⟩ := insert_undo_point_props hI
  have hO2 : b.inserted_undo = false → OngoingInverts b.insert_undo_point b.row :=
    fun hiu => Or.inl ⟨(hseal2 hiu).1, hrow2⟩
  by_cases hA : b.row.length ≤ b.cy
  · have hpre : (EditDiff.Newline).pre (b.insert_undo_point).row := trivial
    obtain ⟨b3, heq3, hI3, hcm3, hog3, hrs3, hiu3, hf3, huc3, happ3, hOI3⟩ :=
      new_diff_inv hI2 hpre
    refine ⟨b3, ?_, hI3, hf3.trans hf2, by rw [hog3]; simp, ?_⟩
    · unfold TextBuffer.insert_line
      show (if (b.insert_undo_point).row.length ≤ (b.insert_undo_point).cy then
          (b.insert_undo_point).new_diff .Newline
        else do
          let r ← (b.insert_undo_point).row.get? (b.insert_undo_point).cy
          if r.len ≤ (b.insert_undo_point).cx then
            (b.insert_undo_point).new_diff
              (.InsertLine ((b.insert_undo_point).cy + 1) [])
          else if (b.insert_undo_point).cx ≤ byteLen r.buf then do
            let truncated ← r.sliceFrom (b.insert_undo_point).cx
            let bb ← (b.insert_undo_point).new_diff
              (.Truncate (b.insert_undo_point).cy truncated)
            bb.new_diff (.InsertLine (bb.cy + 1) truncated)
          else pure (b.insert_undo_point)) = some b3
      rw [if_pos (by rw [hrow2, hcy2]; exact hA)]
      exact heq3
    · intro hiu
      exact ⟨hcm3.trans (hseal2 hiu).2, hOI3 b.row (hO2 hiu)⟩
  · have hcylt : b.cy < b.row.length := by omega
    obtain ⟨r, hget⟩ := get?_of_lt hcylt
    have hwf : r.wf := hI.good.2 r (get?_mem hget)
    have hxle : b.cx ≤ r.buf.length := hI.cOk.2.1 r hget
    have hget2 : (b.insert_undo_point).row.get? (b.insert_undo_point).cy = some r := by
      rw [hrow2, hcy2]
      exact hget
    by_cases hB : r.len ≤ b.cx
    · have hpre : (EditDiff.InsertLine (b.cy + 1) []).pre (b.insert_undo_point).row := by
        rw [hrow2]
        exact ⟨by omega, by omega, by intro c hc; exact absurd hc (List.not_mem_nil c)⟩
      obtain ⟨b3, heq3, hI3, hcm3, hog3, hrs3, hiu3, hf3, huc3, happ3, hOI3⟩ :=
        new_diff_inv hI2 hpre
      refine ⟨b3, ?_, hI3, hf3.trans hf2, by rw [hog3]; simp, ?_⟩
      · unfold TextBuffer.insert_line
        show (if (b.insert_undo_point).row.length ≤ (b.insert_undo_point).cy then
            (b.insert_undo_point).new_diff .Newline
          else do
            let r ← (b.insert_undo_point).row.get? (b.insert_undo_point).cy
            if r.len ≤ (b.insert_undo_point).cx then
              (b.insert_undo_point).new_diff
                (.InsertLine ((b.insert_undo_point).cy + 1) [])
            else if (b.insert_undo_point).cx ≤ byteLen r.buf then do
              let truncated ← r.sliceFrom (b.insert_undo_point).cx
              let bb ← (b.insert_undo_point).new_diff
                (.Truncate (b.insert_undo_point).cy truncated)
              bb.new_diff (.InsertLine (bb.cy + 1) truncated)
            else pure (b.insert_undo_point)) = some b3
        rw [if_neg (by rw [hrow2, hcy2]; exact hA), hget2]
        rw [show ∀ (f : Row → Option TextBuffer), (some r >>= f) = f r from
          fun _ => rfl]
        rw [if_pos (by rw [hcx2]; exact hB), hcy2]
        exact heq3
      · intro hiu
        exact ⟨hcm3.trans (hseal2 hiu).2, hOI3 b.row (hO2 hiu)⟩
    · have hxbyte : b.cx ≤ byteLen r.buf := le_trans hxle (length_le_byteLen r.buf)
      have hslice : r.sliceFrom b.cx = some (r.buf.drop b.cx) := Row.sliceFrom_wf hwf hxle
      have hpre1 : (EditDiff.Truncate b.cy (r.buf.drop b.cx)).pre
          (b.insert_undo_point).row := by
        rw [hrow2]
        exact ⟨r, hget, r.buf.take b.cx, (List.take_append_drop b.cx r.buf).symm⟩
      obtain ⟨b3, heq3, hI3, hcm3, hog3, hrs3, hiu3, hf3, huc3, happ3, hOI3⟩ :=
        new_diff_inv hI2 hpre1
      obtain ⟨rt, htr, hrtbuf, hrtwf⟩ := Row.truncate_ok hwf b.cx
      have hu : usizeSub r.len (r.buf.drop b.cx).length = some b.cx := by
        rw [Row.wf_len hwf, List.length_drop, usizeSub_of_le (by omega)]
        congr 1
        omega
      have heval : (EditDiff.Truncate b.cy (r.buf.drop b.cx)).apply
          (b.insert_undo_point).row .Redo =
          some ((b.insert_undo_point).row.set b.cy rt, b.cx, b.cy) := by
        rw [hrow2]
        simp only [EditDiff.apply, Option.bind_eq_bind, hget, Option.some_bind, hu,
          htr]
        rfl
      have hsame := Option.some.inj (happ3.symm.trans heval)
      have hrow3 : b3.row = (b.insert_undo_point).row.set b.cy rt :=
        congrArg Prod.fst hsame
      have h4 := congrArg Prod.snd hsame
      have hcy3 : b3.cy = b.cy := congrArg Prod.snd h4
      have hpre2 : (EditDiff.InsertLine (b3.cy + 1) (r.buf.drop b.cx)).pre b3.row := by
        rw [hcy3, hrow3, hrow2]
        refine ⟨by omega, ?_, ?_⟩
        · rw [List.length_set]
          omega
        · intro c hc
          exact Row.wf_valid hwf c (List.mem_of_mem_drop hc)
      obtain ⟨b4, heq4, hI4, hcm4, hog4, hrs4, hiu4, hf4, huc4, happ4, hOI4⟩ :=
        new_diff_inv hI3 hpre2
      refine ⟨b4, ?_, hI4, (hf4.trans hf3).trans hf2, by rw [hog4]; simp, ?_⟩
      · unfold TextBuffer.insert_line
        show (if (b.insert_undo_point).row.length ≤ (b.insert_undo_point).cy then
            (b.insert_undo_point).new_diff .Newline
          else do
            let r ← (b.insert_undo_point).row.get? (b.insert_undo_point).cy
            if r.len ≤ (b.insert_undo_point).cx then
              (b.insert_undo_point).new_diff
                (.InsertLine ((b.insert_undo_point).cy + 1) [])
            else if (b.insert_undo_point).cx ≤ byteLen r.buf then do
              let truncated ← r.sliceFrom (b.insert_undo_point).cx
              let bb ← (b.insert_undo_point).new_diff
                (.Truncate (b.insert_undo_point).cy truncated)
              bb.new_diff (.InsertLine (bb.cy + 1) truncated)
            else pure (b.insert_undo_point)) = some b4
        rw [if_neg (by rw [hrow2, hcy2]; exact hA), hget2]
        rw [show ∀ (f : Row → Option TextBuffer), (some r >>= f) = f r from
          fun _ => rfl]
        rw [if_neg (by rw [hcx2]; exact hB), if_pos (by rw [hcx2]; exact hxbyte)]
        rw [hcx2, hslice]
        rw [show ∀ (f : List Char → Option TextBuffer),
          (some (r.buf.drop b.cx) >>= f) = f (r.buf.drop b.cx) from fun _ => rfl]
        rw [hcy2, heq3]
        rw [show ∀ (f : TextBuffer → Option TextBuffer), (some b3 >>= f) = f b3 from
          fun _ => rfl]
        exact heq4
      · intro hiu
        exact ⟨(hcm4.trans hcm3).trans (hseal2 hiu).2,
          hOI4 b.row (hOI3 b.row (hO2 hiu))⟩

/-- `TextBuffer::finish_edit` only clears the latch and the dirty floor. -/
theorem finish_edit_inv {b : TextBuffer} (hI : Inv b) :
    Inv (b.finish_edit).1 ∧ (b.finish_edit).1.hasFile = b.hasFile :=
  ⟨⟨hI.good, hI.cOk, hI.chain, hI.rchain, hI.sep⟩, rfl⟩

/-- `TextBuffer::save` under the invariant: rows and history structure are
untouched except that a clear latch seals the ongoing transaction (the
undo point inserted before writing). -/
theorem save_props {b : TextBuffer} (hI : Inv b) (w : Bool) :
    Inv (b.save w).1 ∧ (b.save w).1.hasFile = b.hasFile ∧
      (b.save w).1.row = b.row ∧
      (b.inserted_undo = false →
        (b.save w).1.history.ongoing = [] ∧
        (b.save w).1.history.committed = b.history.undoList) := by
  obtain ⟨hI2, hrow2, hcx2, hcy2, hf2, hul2, hiu2, hseal2⟩ := insert_undo_point_props hI
  have hfst : (b.save w).1 = b.insert_undo_point ∨
      (b.save w).1 = { b.insert_undo_point with undo_count := 0, modified := false } := by
    have hsave : b.save w = (if (b.insert_undo_point).hasFile then
        if w then ({ b.insert_undo_point with undo_count := 0, modified := false },
          true)
        else (b.insert_undo_point, false)
      else (b.insert_undo_point, true)) := rfl
    rw [hsave]
    by_cases hfile : (b.insert_undo_point).hasFile = true
    · rw [if_pos hfile]
      by_cases hw : w = true
      · rw [if_pos hw]
        exact Or.inr rfl
      · rw [if_neg hw]
        exact Or.inl rfl
    · rw [if_neg hfile]
      exact Or.inl rfl
  rcases hfst with h | h <;> rw [h]
  · exact ⟨hI2, hf2, hrow2, fun hiu => ⟨(hseal2 hiu).1, (hseal2 hiu).2⟩⟩
  · exact ⟨⟨hI2.good, hI2.cOk, hI2.chain, hI2.rchain, hI2.sep⟩, hf2, hrow2,
      fun hiu => ⟨(hseal2 hiu).1, (hseal2 hiu).2⟩⟩

/-- `TextBuffer::delete_right_char` under the invariant: move right, then
delete leftward, a no-op at the very end of the buffer. -/
theorem delete_right_char_props {b : TextBuffer} (hI : Inv b) :
    ∃ b', b.delete_right_char = some b' ∧ Inv b' ∧ b'.hasFile = b.hasFile := by
  unfold TextBuffer.delete_right_char
  by_cases h0 : b.cy = b.row.length
  · rw [if_pos h0]
    exact ⟨b, rfl, hI, rfl⟩
  · rw [if_neg h0]
    have hpos : 1 ≤ b.row.length := by
      have := List.length_pos.mpr hI.good.1
      omega
    have hcylt : b.cy < b.row.length := by
      have := hI.cOk.1
      omega
    rw [usizeSub_of_le hpos]
    rw [show ∀ (f : Nat → Option TextBuffer),
      (some (b.row.length - 1) >>= f) = f (b.row.length - 1) from fun _ => rfl]
    have hmove : ∃ b', (do
        let bb ← b.move_cursor_one .Right
        bb.delete_char) = some b' ∧ Inv b' ∧ b'.hasFile = b.hasFile := by
      obtain ⟨b1, heqm, hI1, hrow1, hh1, hiu1, hf1, hOI1⟩ := move_inv hI .Right
      obtain ⟨b2, heqd, hI2', hf2', _⟩ := delete_char_props hI1
      refine ⟨b2, ?_, hI2', hf2'.trans hf1⟩
      rw [heqm]
      rw [show ∀ (f : TextBuffer → Option TextBuffer), (some b1 >>= f) = f b1 from
        fun _ => rfl]
      exact heqd
    by_cases hylast : b.cy = b.row.length - 1
    · rw [if_pos hylast]
      obtain ⟨r, hget⟩ := get?_of_lt hcylt
      rw [hget]
      rw [show ∀ (f : Row → Option TextBuffer), (some r >>= f) = f r from
        fun _ => rfl]
      rw [show ∀ (f : Bool → Option TextBuffer),
        ((pure (b.cx == r.len) : Option Bool) >>= f) = f (b.cx == r.len) from
        fun _ => rfl]
      beta_reduce
      by_cases hxe : (b.cx == r.len) = true
      · rw [if_pos hxe]
        exact ⟨b, rfl, hI, rfl⟩
      · rw [if_neg hxe]
        exact hmove
    · rw [if_neg hylast]
      rw [show ∀ (f : Bool → Option TextBuffer),
        ((pure false : Option Bool) >>= f) = f false from fun _ => rfl]
      beta_reduce
      rw [if_neg (by simp)]
      exact hmove

/-- Rows produced by reading a file line by line: every row is well formed
and there is one per physical line. -/
theorem mapM_rows {ls : List (List Char)} {rows : List Row}
    (h : ls.mapM Row.new = .ok rows) : rows.length = ls.length ∧ ∀ r ∈ rows, r.wf := by
  induction ls generalizing rows with
  | nil =>
    rw [List.mapM_nil] at h
    cases h
    exact ⟨rfl, fun r hr => absurd hr (List.not_mem_nil r)⟩
  | cons a as ih =>
    rw [List.mapM_cons] at h
    cases hr : Row.new a with
    | error e =>
      rw [hr] at h
      exact Except.noConfusion
        (show (Except.error e : Except Error (List Row)) = Except.ok rows from h)
    | ok r =>
      rw [hr] at h
      rw [show ∀ (f : Row → Except Error (List Row)),
        ((Except.ok r : Except Error Row) >>= f) = f r from fun _ => rfl] at h
      cases hrs : as.mapM Row.new with
      | error e =>
        rw [hrs] at h
        exact Except.noConfusion
          (show (Except.error e : Except Error (List Row)) = Except.ok rows from h)
      | ok rs =>
        rw [hrs] at h
        rw [show ∀ (f : List Row → Except Error (List Row)),
          ((Except.ok rs : Except Error (List Row)) >>= f) = f rs from
          fun _ => rfl] at h
        cases h
        obtain ⟨hlen, hwf⟩ := ih hrs
        refine ⟨by simp [hlen], ?_⟩
        intro x hx
        rcases List.mem_cons.mp hx with rfl | hx
        · exact (Row.new_wf hr).2
        · exact hwf x hx

/-- The scratch buffer satisfies the state invariant. -/
theorem emptyBuf_inv : Inv TextBuffer.emptyBuf := by
  refine ⟨⟨by simp [TextBuffer.emptyBuf], by decide⟩, ⟨by decide, ?_, ?_⟩,
    Chain.nil _, RChain.nil _, ?_⟩
  · intro r hr
    exact Nat.zero_le _
  · intro h0
    exact absurd h0 (by decide)
  · intro h0
    exact absurd rfl h0

/-- Opening a missing path yields the scratch buffer bound to it, also
invariant. -/
theorem openMissing_inv : Inv TextBuffer.openMissing :=
  ⟨emptyBuf_inv.good, emptyBuf_inv.cOk, emptyBuf_inv.chain, emptyBuf_inv.rchain,
    emptyBuf_inv.sep⟩

/-- Opening an existing, non-empty file yields an invariant buffer. -/
theorem openLines_inv {ls : List (List Char)} {b : TextBuffer} (hne : ls ≠ [])
    (h : TextBuffer.openLines ls = .ok b) : Inv b := by
  unfold TextBuffer.openLines at h
  cases hm : ls.mapM Row.new with
  | error e =>
    rw [hm] at h
    exact Except.noConfusion
      (show (Except.error e : Except Error TextBuffer) = Except.ok b from h)
  | ok rows =>
    rw [hm] at h
    rw [show ∀ (f : List Row → Except Error TextBuffer),
      ((Except.ok rows : Except Error (List Row)) >>= f) = f rows from
      fun _ => rfl] at h
    cases h
    obtain ⟨hlen, hwf⟩ := mapM_rows hm
    have hrne : rows ≠ [] := by
      intro h0
      rw [h0] at hlen
      exact hne (List.length_eq_zero.mp hlen.symm)
    refine ⟨⟨hrne, hwf⟩, ⟨Nat.zero_le _, fun r _ => Nat.zero_le _, fun _ => rfl⟩,
      Chain.nil _, RChain.nil _, ?_⟩
    intro h0
    exact absurd rfl h0

/-- The buffer states reachable from the two ways a buffer comes to be
(`empty`, `open` of a missing path, `open` of an existing non-empty file)
by the public operations; a step exists only when the operation returns
rather than panics. -/
inductive Reachable : TextBuffer → Prop
  | scratch : Reachable TextBuffer.emptyBuf
  | openNew : Reachable TextBuffer.openMissing
  | openFile {ls : List (List Char)} {b : TextBuffer} (hne : ls ≠ [])
      (h : TextBuffer.openLines ls = .ok b) : Reachable b
  | typeChar {b b' : TextBuffer} {ch : Char} (hR : Reachable b)
      (h : b.insert_char ch = some b') : Reachable b'
  | delChar {b b' : TextBuffer} (hR : Reachable b)
      (h : b.delete_char = some b') : Reachable b'
  | delRight {b b' : TextBuffer} (hR : Reachable b)
      (h : b.delete_right_char = some b') : Reachable b'
  | newline {b b' : TextBuffer} (hR : Reachable b)
      (h : b.insert_line = some b') : Reachable b'
  | move {b b' : TextBuffer} {dir : CursorDir} (hR : Reachable b)
      (h : b.move_cursor_one dir = some b') : Reachable b'
  | undoStep {b b' : TextBuffer} {r : Bool} (hR : Reachable b)
      (h : b.undo = some (b', r)) : Reachable b'
  | redoStep {b b' : TextBuffer} {r : Bool} (hR : Reachable b)
      (h : b.redo = some (b', r)) : Reachable b'
  | saveStep {b : TextBuffer} (w : Bool) (hR : Reachable b) :
      Reachable (b.save w).1
  | endStroke {b : TextBuffer} (hR : Reachable b) : Reachable (b.finish_edit).1

/-- Every reachable buffer satisfies the state invariant. -/
theorem reach_inv {b : TextBuffer} (h : Reachable b) : Inv b := by
  induction h with
  | scratch => exact emptyBuf_inv
  | openNew => exact openMissing_inv
  | openFile hne h => exact openLines_inv hne h
  | typeChar hR h ih =>
    rename_i b b' ch
    by_cases hc : validChar ch
    · obtain ⟨b2, heq, hI2, _⟩ := insert_char_props ih hc
      rw [heq] at h
      cases h
      exact hI2
    · rw [TextBuffer.insert_char_invalid_none b hc] at h
      exact Option.noConfusion h
  | delChar hR h ih =>
    obtain ⟨b2, heq, hI2, _⟩ := delete_char_props ih
    rw [heq] at h
    cases h
    exact hI2
  | delRight hR h ih =>
    obtain ⟨b2, heq, hI2, _⟩ := delete_right_char_props ih
    rw [heq] at h
    cases h
    exact hI2
  | newline hR h ih =>
    obtain ⟨b2, heq, hI2, _⟩ := insert_line_props ih
    rw [heq] at h
    cases h
    exact hI2
  | move hR h ih =>
    rename_i b b' dir
    obtain ⟨b2, heq, hI2, _⟩ := move_inv ih dir
    rw [heq] at h
    cases h
    exact hI2
  | undoStep hR h ih =>
    obtain ⟨b2, r2, heq, hI2, _⟩ := undo_inv ih
    rw [heq] at h
    cases h
    exact hI2
  | redoStep hR h ih =>
    obtain ⟨b2, r2, heq, hI2, _⟩ := redo_inv ih
    rw [heq] at h
    cases h
    exact hI2
  | saveStep w hR ih => exact (save_props ih w).1
  | endStroke hR ih => exact (finish_edit_inv ih).1

/-- Undo on a buffer with an open transaction seals and pops exactly that
transaction, restoring the rows it undoes to. -/
theorem undo_pops_ongoing {b : TextBuffer} {rows0 : List Row} (hI : Inv b)
    (hog : b.history.ongoing ≠ []) (hO : OngoingInverts b rows0) :
    ∃ bu, b.undo = some (bu, true) ∧ bu.row = rows0 ∧
      bu.history.committed = b.history.committed := by
  have hul : b.history.undoList = b.history.ongoing :: b.history.committed := by
    unfold History.undoList
    rw [if_neg hog]
  obtain ⟨bu, r, hequ, hIu, hfu, hiuu, hnilu, hconsu⟩ := undo_inv hI
  obtain ⟨hr, hcm, _, _, x, y, m, htxn⟩ := hconsu _ _ hul
  rcases hO with ⟨h1, _⟩ | hCL
  · exact absurd h1 hog
  · obtain ⟨xt, yt, mt, xr, yr, mr, htxn0, _, _, _⟩ := hCL
    have hsame := Option.some.inj (htxn.symm.trans htxn0)
    subst hr
    exact ⟨bu, hequ, congrArg Prod.fst hsame, hcm⟩

/-- C2: consecutive valid keystrokes from a state with no open transaction
accumulate into one transaction that a single `undo` reverts entirely,
restoring the pre-typing rows with the sealed history untouched; and a
structural edit performed while that typing transaction is still open (the
latch clear, the cursor possibly repositioned) — a `delete_char` line join,
an `insert_line`, or a `save` — first seals the typing transaction, so the
characters stay in place: an `undo` right after the structural edit
restores exactly the post-typing rows, and the typing transaction is still
on the sealed stack. -/
theorem C2_transaction_grouping {b0 : TextBuffer} {cs : List Char}
    (hI0 : Inv b0) (hog0 : b0.history.ongoing = [])
    (hiu0 : b0.inserted_undo = false)
    (hcs : cs ≠ []) (hv : ∀ c ∈ cs, validChar c) :
    ∃ bN, typeRun b0 cs = some bN ∧
      bN.history.committed = b0.history.committed ∧
      bN.history.ongoing ≠ [] ∧
      (∃ bu, bN.undo = some (bu, true) ∧ bu.row = b0.row ∧
        bu.history.committed = b0.history.committed) ∧
      (∀ ms bM, moveRun bN ms = some bM →
        bM.row = bN.row ∧
        ((bM.cx = 0 ∧ 0 < bM.cy ∧ bM.cy < bM.row.length) →
          ∃ bS, bM.delete_char = some bS ∧
            bS.history.committed = bN.history.ongoing :: b0.history.committed ∧
            ∃ bu, bS.undo = some (bu, true) ∧ bu.row = bN.row ∧
              bu.history.committed =
                bN.history.ongoing :: b0.history.committed) ∧
        (∃ bS, bM.insert_line = some bS ∧
          bS.history.committed = bN.history.ongoing :: b0.history.committed ∧
          ∃ bu, bS.undo = some (bu, true) ∧ bu.row = bN.row ∧
            bu.history.committed = bN.history.ongoing :: b0.history.committed) ∧
        (∀ w, (bM.save w).1.history.ongoing = [] ∧
          (bM.save w).1.history.committed =
            bN.history.ongoing :: b0.history.committed)) := by
  obtain ⟨bN, heqN, hIN, hcmN, hiuN, hfN, hogN, hOIN⟩ := typeRun_props hI0 hv
  have hogneN : bN.history.ongoing ≠ [] := hogN (Or.inr hcs)
  have hON : OngoingInverts bN b0.row := hOIN b0.row (Or.inl ⟨hog0, rfl⟩)
  have hiuNf : bN.inserted_undo = false := hiuN.trans hiu0
  refine ⟨bN, heqN, hcmN, hogneN, ?_, ?_⟩
  · obtain ⟨bu, hequ, hrowu, hcmu⟩ := undo_pops_ongoing hIN hogneN hON
    exact ⟨bu, hequ, hrowu, hcmu.trans hcmN⟩
  · intro ms bM heqM
    obtain ⟨bM', heqM', hIM', hrowM', hhM', hiuM', hfM', hOIM'⟩ :=
      moveRun_props hIN
    rw [heqM'] at heqM
    cases heqM
    have hiuM : bM.inserted_undo = false := hiuM'.trans hiuNf
    have hogM : bM.history.ongoing = bN.history.ongoing := by rw [hhM']
    have hcmM : bM.history.committed = bN.history.committed := by rw [hhM']
    have hulM : bM.history.undoList =
        bN.history.ongoing :: b0.history.committed := by
      unfold History.undoList
      rw [hogM, hcmM, hcmN, if_neg hogneN]
    refine ⟨hrowM', ?_, ?_, ?_⟩
    · intro ⟨hx0, hy0, hylt⟩
      obtain ⟨bS, heqS, hIS, hfS, hmain⟩ := delete_char_props hIM'
      have hnostop : ¬ (bM.cy = bM.row.length ∨ (bM.cx = 0 ∧ bM.cy = 0)) := by
        push_neg
        exact ⟨by omega, fun _ => by omega⟩
      obtain ⟨hogneS, hsealS⟩ := hmain hnostop
      obtain ⟨hcmS, hOS⟩ := hsealS hiuM
      refine ⟨bS, heqS, (hcmS.trans hulM), ?_⟩
      obtain ⟨bu, hequ, hrowu, hcmu⟩ := undo_pops_ongoing hIS hogneS hOS
      exact ⟨bu, hequ, hrowu.trans hrowM', hcmu.trans (hcmS.trans hulM)⟩
    · obtain ⟨bS, heqS, hIS, hfS, hogneS, hsealS⟩ := insert_line_props hIM'
      obtain ⟨hcmS, hOS⟩ := hsealS hiuM
      refine ⟨bS, heqS, hcmS.trans hulM, ?_⟩
      obtain ⟨bu, hequ, hrowu, hcmu⟩ := undo_pops_ongoing hIS hogneS hOS
      exact ⟨bu, hequ, hrowu.trans hrowM', hcmu.trans (hcmS.trans hulM)⟩
    · intro w
      obtain ⟨hIsv, hfsv, hrowsv, hsealsv⟩ := save_props hIM' w
      obtain ⟨hogsv, hcmsv⟩ := hsealsv hiuM
      exact ⟨hogsv, hcmsv.trans hulM⟩

/-- C1: every edit operation applied forward (`Redo`) from a good state
satisfying its recording precondition succeeds, and applying it backward
(`Undo`) from the resulting post-state restores the original lines
exactly — in particular the same line count and, line by line, identical
content and character length; the same two equations are the
undo-then-redo round trip read from the post-state. -/
theorem C1_editop_invertibility (d : EditDiff) (rows : List Row)
    (hg : GoodRows rows) (hp : d.pre rows) :
    ∃ rows' xr yr xu yu,
      d.apply rows .Redo = some (rows', xr, yr) ∧
      d.apply rows' .Undo = some (rows, xu, yu) ∧
      ∀ rowsU xu' yu', d.apply rows' .Undo = some (rowsU, xu', yu') →
        rowsU.length = rows.length ∧
        ∀ i, (rowsU.get? i).map Row.buf = (rows.get? i).map Row.buf ∧
          (rowsU.get? i).map Row.len = (rows.get? i).map Row.len := by
  obtain ⟨rows', xr, yr, xu, yu, hredo, hg', hcr, hundo, hcu⟩ :=
    EditDiff.apply_roundtrip d rows hg hp
  refine ⟨rows', xr, yr, xu, yu, hredo, hundo, ?_⟩
  intro rowsU xu' yu' h
  rw [hundo] at h
  have hsame := Option.some.inj h
  have hrows : rows = rowsU := congrArg Prod.fst hsame
  subst hrows
  exact ⟨rfl, fun i => ⟨rfl, rfl⟩⟩

theorem C1_editop_invertibility_witness :
    ∃ rows' xr yr xu yu,
      (EditDiff.InsertChar 0 0 'a').apply [Row.emptyRow] .Redo =
        some (rows', xr, yr) ∧
      (EditDiff.InsertChar 0 0 'a').apply rows' .Undo =
        some ([Row.emptyRow], xu, yu) ∧
      ∀ rowsU xu' yu',
        (EditDiff.InsertChar 0 0 'a').apply rows' .Undo = some (rowsU, xu', yu') →
        rowsU.length = [Row.emptyRow].length ∧
        ∀ i, (rowsU.get? i).map Row.buf = ([Row.emptyRow].get? i).map Row.buf ∧
          (rowsU.get? i).map Row.len = ([Row.emptyRow].get? i).map Row.len :=
  C1_editop_invertibility (EditDiff.InsertChar 0 0 'a') [Row.emptyRow]
    ⟨by decide, by decide⟩ ⟨Row.emptyRow, rfl, Nat.zero_le _, by decide⟩

/-- C3 counterexample: `Row::insert_char` of a control character (U+0001)
on the empty row yields no row at all — the mutation does not return the
`ControlCharInText` error to its caller (in the source its return type
carries no error and the render failure is unwrapped, a panic), against the
claim that every mutation propagates the taxonomy error. -/
theorem C3_error_return_counterexample :
    Row.emptyRow.insert_char 0 (Char.ofNat 1) = none := by decide

/-- C3 (amended): a character with no display width is rejected with
`ControlCharInText` only by construction (`Row::new`); the in-place
mutations taking text (`insert_char`, `append`) die instead (modelled
`none`), so no partially updated row is ever returned — but no error
reaches the caller either. -/
theorem C3_invalid_char_behavior {c : Char} (hc : ¬ validChar c)
    (r : Row) (i : Nat) {s : List Char} (hcs : c ∈ s) :
    r.insert_char i c = none ∧ r.append s = none ∧
    ∃ x, ¬ validChar x ∧ Row.new s = .error (.ControlCharInText x) := by
  refine ⟨Row.insert_char_invalid r i hc, Row.append_invalid r hcs hc, ?_⟩
  obtain ⟨x, hx, hnx, herr⟩ := Row.new_invalid s ⟨c, hcs, hc⟩
  exact ⟨x, hnx, herr⟩

theorem C3_invalid_char_behavior_witness :
    Row.emptyRow.insert_char 0 (Char.ofNat 1) = none ∧
    Row.emptyRow.append [Char.ofNat 1] = none ∧
    ∃ x, ¬ validChar x ∧
      Row.new [Char.ofNat 1] = .error (.ControlCharInText x) :=
  C3_invalid_char_behavior (by decide) Row.emptyRow 0
    (List.mem_singleton.mpr rfl)

/-- C4: on a well-formed row, character-to-byte addressing is strictly
monotone in the character index, maps the end-of-line index to the byte
length of the content, and reading at the mapped offset
(`char_at_checked`) yields the i-th character of the content. -/
theorem C4_char_addressing {r : Row} (hwf : r.wf) :
    (∀ i j bi bj, i < j → j ≤ r.buf.length →
      r.byte_idx_of i = some bi → r.byte_idx_of j = some bj → bi < bj) ∧
    r.byte_idx_of r.buf.length = some (byteLen r.buf) ∧
    (∀ i, i < r.buf.length → r.char_at_checked i = r.buf.get? i) := by
  refine ⟨?_, ?_, fun i hi => Row.char_at_checked_wf hwf hi⟩
  · intro i j bi bj hij hj hbi hbj
    rw [Row.byte_idx_of_wf hwf i (by omega)] at hbi
    rw [Row.byte_idx_of_wf hwf j hj] at hbj
    cases hbi
    cases hbj
    have h1 : r.buf.take i = (r.buf.take j).take i := by
      rw [List.take_take, Nat.min_eq_left (by omega)]
    have h2 : i < (r.buf.take j).length := by
      rw [List.length_take]
      omega
    rw [h1]
    exact byteLen_take_lt h2
  · rw [Row.byte_idx_of_wf hwf r.buf.length (Nat.le_refl _), List.take_length]

theorem C4_char_addressing_witness :
    (∀ i j bi bj, i < j → j ≤ (['a', 'é'] : List Char).length →
      (Row.mk ['a', 'é'] ['a', 'é'] [0, 1]).byte_idx_of i = some bi →
      (Row.mk ['a', 'é'] ['a', 'é'] [0, 1]).byte_idx_of j = some bj → bi < bj) ∧
    (Row.mk ['a', 'é'] ['a', 'é'] [0, 1]).byte_idx_of
      (['a', 'é'] : List Char).length = some (byteLen ['a', 'é']) ∧
    (∀ i, i < (['a', 'é'] : List Char).length →
      (Row.mk ['a', 'é'] ['a', 'é'] [0, 1]).char_at_checked i =
        (['a', 'é'] : List Char).get? i) :=
  @C4_char_addressing (Row.mk ['a', 'é'] ['a', 'é'] [0, 1]) (by decide)

/-- C5 counterexample: opening an existing empty file (its reader yields no
line at all) produces a buffer whose line collection is empty, against the
claim that every reachable line collection is non-empty. -/
theorem C5_empty_open_counterexample :
    ∃ b, TextBuffer.openLines [] = .ok b ∧ b.row = [] :=
  ⟨⟨0, 0, true, [], 0, false, History.dflt, false, some 0⟩, rfl, rfl⟩

/-- C5 (amended): from `empty`, from `open` of a missing path, or from
`open` of an existing file with at least one line, every buffer reachable
by the public operations keeps at least one row; the unamended claim fails
at `open` of an existing empty file. -/
theorem C5_rows_nonempty {b : TextBuffer} (hR : Reachable b) : b.row ≠ [] :=
  (reach_inv hR).good.1

theorem C5_rows_nonempty_witness : TextBuffer.emptyBuf.row ≠ [] :=
  C5_rows_nonempty Reachable.scratch

/-- C9: undo never dies on a reachable buffer: replaying the most recent
transaction backward always succeeds — in particular the backward `Newline`
branch always finds an empty last line to pop (its assertion never fires,
no text is discarded), and this holds inductively for every transaction
since undone states are again reachable. -/
theorem C9_undo_replay_safe {b : TextBuffer} (hR : Reachable b) :
    (∃ bb r, b.undo = some (bb, r)) ∧
    ∀ t ts, b.history.undoList = t :: ts →
      ∃ rows' x y m, txnUndo t b.row = some (rows', x, y, m) := by
  obtain ⟨bb, r, hequ, hIu, hfu, hiuu, hnilu, hconsu⟩ := undo_inv (reach_inv hR)
  refine ⟨⟨bb, r, hequ⟩, ?_⟩
  intro t ts hul
  obtain ⟨_, _, _, _, x, y, m, htxn⟩ := hconsu t ts hul
  exact ⟨bb.row, x, y, m, htxn⟩

theorem C9_undo_replay_safe_witness :
    (∃ bb r, TextBuffer.emptyBuf.undo = some (bb, r)) ∧
    ∀ t ts, TextBuffer.emptyBuf.history.undoList = t :: ts →
      ∃ rows' x y m, txnUndo t TextBuffer.emptyBuf.row = some (rows', x, y, m) :=
  C9_undo_replay_safe Reachable.scratch

/-- C10: `delete_char` is a no-op not only at the buffer start `(0,0)` but
whenever the cursor row equals the line count (the past-last-line
sentinel): it returns the buffer with every field unchanged. -/
theorem C10_delete_char_sentinel_noop {b : TextBuffer}
    (h : b.cy = b.row.length ∨ (b.cx = 0 ∧ b.cy = 0)) :
    b.delete_char = some b := by
  unfold TextBuffer.delete_char
  rw [if_pos h]

theorem C10_delete_char_sentinel_noop_witness :
    (⟨3, 1, false, [Row.emptyRow], 2, true, History.dflt, false, none⟩ :
      TextBuffer).delete_char =
    some (⟨3, 1, false, [Row.emptyRow], 2, true, History.dflt, false, none⟩ :
      TextBuffer) :=
  C10_delete_char_sentinel_noop (Or.inl (by decide))

/-- C6: on `["ab","cd"]` with the cursor at column 0 of line 1,
`delete_char` merges the lines into `["abcd"]` leaving the cursor at
`(2,0)`, and one `undo` restores `["ab","cd"]` with the cursor at
`(0,1)`. -/
theorem C6_join_undo_scenario :
    ∃ ra rb, Row.new ['a', 'b'] = .ok ra ∧ Row.new ['c', 'd'] = .ok rb ∧
      ((⟨0, 1, false, [ra, rb], 0, false, History.dflt, false, some 0⟩ :
          TextBuffer).delete_char.map fun b1 =>
            (b1.row.map Row.buf, b1.cx, b1.cy)) =
        some ([['a', 'b', 'c', 'd']], 2, 0) ∧
      (((⟨0, 1, false, [ra, rb], 0, false, History.dflt, false, some 0⟩ :
          TextBuffer).delete_char.bind TextBuffer.undo).map fun p =>
            (p.1.row.map Row.buf, p.1.cx, p.1.cy, p.2)) =
        some ([['a', 'b'], ['c', 'd']], 0, 1, true) := by
  exact ⟨_, _, rfl, rfl, by decide, by decide⟩

/-- A row rebuilt through `update_render` is well formed, whatever produced
its new content. -/
theorem Row.wf_of_render_bind {X : Option (List Char)} {r' : Row}
    (h : (do
      let buf' ← X
      let p ← (update_render buf').toOption
      pure (⟨buf', p.1, p.2⟩ : Row)) = some r') : r'.wf := by
  cases hX : X with
  | none =>
    rw [hX] at h
    exact Option.noConfusion h
  | some buf' =>
    rw [hX] at h
    rw [show ∀ (f : List Char → Option Row), (some buf' >>= f) = f buf' from
      fun _ => rfl] at h
    cases hu : (update_render buf').toOption with
    | none =>
      rw [hu] at h
      exact Option.noConfusion h
    | some p =>
      rw [hu] at h
      rw [show ∀ (f : List Char × List Nat → Option Row), (some p >>= f) = f p from
        fun _ => rfl] at h
      cases h
      show update_render buf' = .ok (p.1, p.2)
      cases hur : update_render buf' with
      | error e =>
        rw [hur] at hu
        exact Option.noConfusion hu
      | ok q =>
        rw [hur] at hu
        have hq : q = p := Option.some.inj hu
        rw [hq]

/-- Whenever `Row::insert_char` returns, the result is well formed. -/
theorem Row.insert_char_wf_of_some {r : Row} {i : Nat} {c : Char} {r' : Row}
    (h : r.insert_char i c = some r') : r'.wf := by
  unfold Row.insert_char at h
  by_cases hle : r.len ≤ i
  · rw [if_pos hle] at h
    exact @Row.wf_of_render_bind (some (r.buf ++ [c])) r' h
  · rw [if_neg hle] at h
    cases hb : r.byte_idx_of i with
    | none =>
      rw [hb] at h
      exact Option.noConfusion h
    | some b =>
      rw [hb] at h
      exact @Row.wf_of_render_bind (insertAtByte r.buf b c) r' h

/-- Whenever `Row::append` returns, the result is well formed. -/
theorem Row.append_wf_of_some {r : Row} {s : List Char} {r' : Row} (hwf : r.wf)
    (h : r.append s = some r') : r'.wf := by
  unfold Row.append at h
  by_cases hs : s = []
  · rw [if_pos hs] at h
    cases h
    exact hwf
  · rw [if_neg hs] at h
    exact @Row.wf_of_render_bind (some (r.buf ++ s)) r' h

/-- Whenever `Row::truncate` returns, the result is well formed. -/
theorem Row.truncate_wf_of_some {r : Row} {i : Nat} {r' : Row} (hwf : r.wf)
    (h : r.truncate i = some r') : r'.wf := by
  unfold Row.truncate at h
  by_cases hlt : i < r.len
  · rw [if_pos hlt] at h
    cases hb : r.byte_idx_of i with
    | none =>
      rw [hb] at h
      exact Option.noConfusion h
    | some b =>
      rw [hb] at h
      exact @Row.wf_of_render_bind (truncateAtByte r.buf b) r' h
  · rw [if_neg hlt] at h
    cases h
    exact hwf

/-- Whenever `Row::remove_char` returns, the result is well formed. -/
theorem Row.remove_char_wf_of_some {r : Row} {i : Nat} {r' : Row}
    (h : r.remove_char i = some r') : r'.wf := by
  unfold Row.remove_char at h
  cases hb : r.byte_idx_of i with
  | none =>
    rw [hb] at h
    exact Option.noConfusion h
  | some b =>
    rw [hb] at h
    exact @Row.wf_of_render_bind (removeAtByte r.buf b) r' h

/-- Whenever `Row::remove` returns, the result is well formed. -/
theorem Row.remove_wf_of_some {r : Row} {a z : Nat} {r' : Row} (hwf : r.wf)
    (h : r.remove a z = some r') : r'.wf := by
  unfold Row.remove at h
  by_cases hlt : a < z
  · rw [if_pos hlt] at h
    cases hs : r.byte_idx_of a with
    | none =>
      rw [hs] at h
      exact Option.noConfusion h
    | some sb =>
      rw [hs] at h
      cases he : r.byte_idx_of z with
      | none =>
        rw [he] at h
        exact Option.noConfusion h
      | some eb =>
        rw [he] at h
        exact @Row.wf_of_render_bind (drainBytes r.buf sb eb) r' h
  · rw [if_neg hlt] at h
    cases h
    exact hwf

/-- The derived fields of a well-formed row, read as the spec describes
them: rendered display form, and the cache present exactly for multi-byte
content, its absence meaning character index equals byte offset. -/
theorem wf_derived {r : Row} (hwf : r.wf) :
    r.render = renderSpec r.buf 0 ∧
    (r.indices ≠ [] ↔ ∃ c ∈ r.buf, 1 < charSize c) ∧
    (r.indices ≠ [] → r.indices = byteOffsets r.buf) ∧
    (r.indices = [] → ∀ i, r.byte_idx_of i = some i) := by
  obtain ⟨hr, hi⟩ := Row.wf_fields hwf
  refine ⟨hr, ?_, ?_, ?_⟩
  · rw [hi]
    unfold specIdx
    by_cases he : byteLen r.buf = r.buf.length
    · rw [if_pos he]
      constructor
      · intro h0
        exact absurd rfl h0
      · rintro ⟨c, hc, hgt⟩
        have h1 := (byteLen_eq_length_iff _).mp he c hc
        omega
    · rw [if_neg he]
      obtain ⟨_, hne, _⟩ := specIdx_of_ne he
      refine ⟨fun _ => ?_, fun _ => hne⟩
      by_contra hall
      push_neg at hall
      exact he ((byteLen_eq_length_iff _).mpr fun c hc => by
        have h1 := charSize_pos c
        have h2 := hall c hc
        omega)
  · intro h0
    rw [hi] at h0 ⊢
    unfold specIdx at h0 ⊢
    by_cases he : byteLen r.buf = r.buf.length
    · rw [if_pos he] at h0
      exact absurd rfl h0
    · rw [if_neg he]
  · intro h0 i
    unfold Row.byte_idx_of
    rw [h0]
    simp

/-- C7: after construction and after every returning mutation, the derived
fields match the content: the rendered text is the display form (tabs
expanded with spaces to the next multiple of the tab stop, other characters
kept), and the byte-offset cache is present exactly when some character is
multi-byte, holding each character's byte offset; its absence means the
character index is the byte offset. -/
theorem C7_derived_fields :
    (∀ l r, Row.new l = .ok r →
      r.render = renderSpec r.buf 0 ∧
      (r.indices ≠ [] ↔ ∃ c ∈ r.buf, 1 < charSize c) ∧
      (r.indices ≠ [] → r.indices = byteOffsets r.buf) ∧
      (r.indices = [] → ∀ i, r.byte_idx_of i = some i)) ∧
    (∀ (r : Row) i c r', r.insert_char i c = some r' →
      r'.render = renderSpec r'.buf 0 ∧
      (r'.indices ≠ [] ↔ ∃ x ∈ r'.buf, 1 < charSize x) ∧
      (r'.indices ≠ [] → r'.indices = byteOffsets r'.buf) ∧
      (r'.indices = [] → ∀ j, r'.byte_idx_of j = some j)) ∧
    (∀ (r : Row) s r', r.wf → r.append s = some r' →
      r'.render = renderSpec r'.buf 0 ∧
      (r'.indices ≠ [] ↔ ∃ x ∈ r'.buf, 1 < charSize x) ∧
      (r'.indices ≠ [] → r'.indices = byteOffsets r'.buf) ∧
      (r'.indices = [] → ∀ j, r'.byte_idx_of j = some j)) ∧
    (∀ (r : Row) i r', r.wf → r.truncate i = some r' →
      r'.render = renderSpec r'.buf 0 ∧
      (r'.indices ≠ [] ↔ ∃ x ∈ r'.buf, 1 < charSize x) ∧
      (r'.indices ≠ [] → r'.indices = byteOffsets r'.buf) ∧
      (r'.indices = [] → ∀ j, r'.byte_idx_of j = some j)) ∧
    (∀ (r : Row) i r', r.remove_char i = some r' →
      r'.render = renderSpec r'.buf 0 ∧
      (r'.indices ≠ [] ↔ ∃ x ∈ r'.buf, 1 < charSize x) ∧
      (r'.indices ≠ [] → r'.indices = byteOffsets r'.buf) ∧
      (r'.indices = [] → ∀ j, r'.byte_idx_of j = some j)) ∧
    (∀ (r : Row) a z r', r.wf → r.remove a z = some r' →
      r'.render = renderSpec r'.buf 0 ∧
      (r'.indices ≠ [] ↔ ∃ x ∈ r'.buf, 1 < charSize x) ∧
      (r'.indices ≠ [] → r'.indices = byteOffsets r'.buf) ∧
      (r'.indices = [] → ∀ j, r'.byte_idx_of j = some j)) :=
  ⟨fun _ _ h => wf_derived (Row.new_wf h).2,
   fun _ _ _ _ h => wf_derived (Row.insert_char_wf_of_some h),
   fun _ _ _ hwf h => wf_derived (Row.append_wf_of_some hwf h),
   fun _ _ _ hwf h => wf_derived (Row.truncate_wf_of_some hwf h),
   fun _ _ _ h => wf_derived (Row.remove_char_wf_of_some h),
   fun _ _ _ _ hwf h => wf_derived (Row.remove_wf_of_some hwf h)⟩

/-- C8: on any reachable buffer, one cursor move returns without touching
rows, history, counters, flags or the dirty floor, and the cursor obeys the
per-direction rule: Left steps back or wraps to the previous line's end
(no-op at the origin), Right steps forward or wraps to the next line's
column 0 (no-op at the sentinel row), Up and Down move one row with the
column clamped to the destination line's length. -/
theorem C8_move_cursor {b : TextBuffer} (hR : Reachable b) (dir : CursorDir) :
    ∃ b', b.move_cursor_one dir = some b' ∧
      b'.row = b.row ∧ b'.history = b.history ∧ b'.undo_count = b.undo_count ∧
      b'.modified = b.modified ∧ b'.dirty_start = b.dirty_start ∧
      b'.inserted_undo = b.inserted_undo ∧ b'.hasFile = b.hasFile ∧
      ((dir = .Left ∧ b.cx = 0 ∧ b.cy = 0) → b' = b) ∧
      ((dir = .Left ∧ 0 < b.cx) → b'.cx = b.cx - 1 ∧ b'.cy = b.cy) ∧
      ((dir = .Left ∧ b.cx = 0 ∧ 0 < b.cy) →
        b'.cy = b.cy - 1 ∧ ∀ r, b.row.get? (b.cy - 1) = some r → b'.cx = r.len) ∧
      ((dir = .Right ∧ b.cy = b.row.length) → b' = b) ∧
      ((dir = .Right ∧ b.cy < b.row.length) →
        ∀ r, b.row.get? b.cy = some r →
          (b.cx < r.len → b'.cx = b.cx + 1 ∧ b'.cy = b.cy) ∧
          (b.cx = r.len → b'.cx = 0 ∧ b'.cy = b.cy + 1)) ∧
      (dir = .Up → b'.cy = b.cy - 1 ∧
        b'.cx = min b.cx ((b.row.get? (b.cy - 1)).elim 0 Row.len)) ∧
      (dir = .Down →
        b'.cy = (if b.cy < b.row.length then b.cy + 1 else b.cy) ∧
        b'.cx = min b.cx
          ((b.row.get? (if b.cy < b.row.length then b.cy + 1 else b.cy)).elim 0
            Row.len)) := by
  have hI := reach_inv hR
  obtain ⟨b', heq, hok, hrow, hh, huc, hm, hd, hiu, hf, p1, p2, p3, p4, p5, p6, p7⟩ :=
    move_spec hI.good hI.cOk dir
  exact ⟨b', heq, hrow, hh, huc, hm, hd, hiu, hf, p1, p2, p3, p4, p5, p6, p7⟩

theorem C8_move_cursor_witness :
    ∃ b', TextBuffer.emptyBuf.move_cursor_one .Left = some b' ∧
      b'.row = TextBuffer.emptyBuf.row ∧
      b'.history = TextBuffer.emptyBuf.history ∧
      b'.undo_count = TextBuffer.emptyBuf.undo_count ∧
      b'.modified = TextBuffer.emptyBuf.modified ∧
      b'.dirty_start = TextBuffer.emptyBuf.dirty_start ∧
      b'.inserted_undo = TextBuffer.emptyBuf.inserted_undo ∧
      b'.hasFile = TextBuffer.emptyBuf.hasFile ∧
      ((CursorDir.Left = .Left ∧ TextBuffer.emptyBuf.cx = 0 ∧
          TextBuffer.emptyBuf.cy = 0) → b' = TextBuffer.emptyBuf) ∧
      ((CursorDir.Left = .Left ∧ 0 < TextBuffer.emptyBuf.cx) →
        b'.cx = TextBuffer.emptyBuf.cx - 1 ∧ b'.cy = TextBuffer.emptyBuf.cy) ∧
      ((CursorDir.Left = .Left ∧ TextBuffer.emptyBuf.cx = 0 ∧
          0 < TextBuffer.emptyBuf.cy) →
        b'.cy = TextBuffer.emptyBuf.cy - 1 ∧
        ∀ r, TextBuffer.emptyBuf.row.get? (TextBuffer.emptyBuf.cy - 1) = some r →
          b'.cx = r.len) ∧
      ((CursorDir.Left = .Right ∧
          TextBuffer.emptyBuf.cy = TextBuffer.emptyBuf.row.length) →
        b' = TextBuffer.emptyBuf) ∧
      ((CursorDir.Left = .Right ∧
          TextBuffer.emptyBuf.cy < TextBuffer.emptyBuf.row.length) →
        ∀ r, TextBuffer.emptyBuf.row.get? TextBuffer.emptyBuf.cy = some r →
          (TextBuffer.emptyBuf.cx < r.len →
            b'.cx = TextBuffer.emptyBuf.cx + 1 ∧ b'.cy = TextBuffer.emptyBuf.cy) ∧
          (TextBuffer.emptyBuf.cx = r.len →
            b'.cx = 0 ∧ b'.cy = TextBuffer.emptyBuf.cy + 1)) ∧
      (CursorDir.Left = .Up → b'.cy = TextBuffer.emptyBuf.cy - 1 ∧
        b'.cx = min TextBuffer.emptyBuf.cx
          ((TextBuffer.emptyBuf.row.get? (TextBuffer.emptyBuf.cy - 1)).elim 0
            Row.len)) ∧
      (CursorDir.Left = .Down →
        b'.cy = (if TextBuffer.emptyBuf.cy < TextBuffer.emptyBuf.row.length then
          TextBuffer.emptyBuf.cy + 1 else TextBuffer.emptyBuf.cy) ∧
        b'.cx = min TextBuffer.emptyBuf.cx
          ((TextBuffer.emptyBuf.row.get?
            (if TextBuffer.emptyBuf.cy < TextBuffer.emptyBuf.row.length then
              TextBuffer.emptyBuf.cy + 1 else TextBuffer.emptyBuf.cy)).elim 0
            Row.len)) :=
  C8_move_cursor Reachable.scratch .Left

theorem C2_transaction_grouping_witness :
    ∃ bN, typeRun TextBuffer.emptyBuf ['a'] = some bN ∧
      bN.history.committed = TextBuffer.emptyBuf.history.committed ∧
      bN.history.ongoing ≠ [] ∧
      (∃ bu, bN.undo = some (bu, true) ∧ bu.row = TextBuffer.emptyBuf.row ∧
        bu.history.committed = TextBuffer.emptyBuf.history.committed) ∧
      (∀ ms bM, moveRun bN ms = some bM →
        bM.row = bN.row ∧
        ((bM.cx = 0 ∧ 0 < bM.cy ∧ bM.cy < bM.row.length) →
          ∃ bS, bM.delete_char = some bS ∧
            bS.history.committed =
              bN.history.ongoing :: TextBuffer.emptyBuf.history.committed ∧
            ∃ bu, bS.undo = some (bu, true) ∧ bu.row = bN.row ∧
              bu.history.committed =
                bN.history.ongoing :: TextBuffer.emptyBuf.history.committed) ∧
        (∃ bS, bM.insert_line = some bS ∧
          bS.history.committed =
            bN.history.ongoing :: TextBuffer.emptyBuf.history.committed ∧
          ∃ bu, bS.undo = some (bu, true) ∧ bu.row = bN.row ∧
            bu.history.committed =
              bN.history.ongoing :: TextBuffer.emptyBuf.history.committed) ∧
        (∀ w, (bM.save w).1.history.ongoing = [] ∧
          (bM.save w).1.history.committed =
            bN.history.ongoing :: TextBuffer.emptyBuf.history.committed)) :=
  C2_transaction_grouping emptyBuf_inv rfl rfl (by decide) (by decide)

end Berry
